import Mathlib

/-!
# Verification of the PDF number-extraction engine

Shallow embedding of the number-extraction-and-normalization engine of
`pdf_max_finder.py` and `pdf_max_finder_nlp.py`.

Conventions of the embedding:

* Python floats are modeled as exact decimal fractions `DecF`
  (`mant / 10 ^ exp`), interpreted into `ℚ` by `DecF.toQ`.  Where CPython
  raises `OverflowError` (conversion of `10 ** e` to float in
  `parse_scientific_notation`, and `float ** int` for power notation), the
  embedding discards the candidate once the exact value reaches
  `2 ^ 1024` (the IEEE-754 double overflow threshold); rounding of
  in-range values is not modeled.
* Text is a `List Char` (`String.data`); the regular expressions of the
  source are embedded as explicit matchers with ASCII semantics for
  `\d`, `\s`, `\w`, `\b` and case folding.  Each matcher is written to
  realize exactly the leftmost-match / ordered-alternation / greedy
  backtracking behaviour of the Python `re` module on its pattern.
* The optional spaCy collaborator (`nlp`) is a parameter of the
  extraction: `none` models "spaCy unavailable or no model", and
  `some (Except.error e)` models "entity extraction raised"; a successful
  run of `extract_entities_with_spacy` is `some (Except.ok l)`.
* `extractD` additionally records, for each emitted `(value, context)`
  pair, the half-open character span of the candidate that produced it
  (the source tracks these spans in `used_spans`); the pure
  `(value, context)` output of `extract_numbers_with_context` is its
  projection.
-/

set_option maxRecDepth 8000

namespace Pdf

/-- ASCII digit test, the model of regex `\d`. -/
def isDig (c : Char) : Bool := decide ('0' ≤ c) && decide (c ≤ '9')

/-- ASCII whitespace test, the model of regex `\s`. -/
def isSpc (c : Char) : Bool :=
  decide (c = ' ') || decide (c = '\t') || decide (c = '\n') || decide (c = '\r') ||
    decide (c = '\x0b') || decide (c = '\x0c')

/-- ASCII word-character test, the model of regex `\w` (used by `\b`). -/
def isWrd (c : Char) : Bool :=
  (decide ('a' ≤ c) && decide (c ≤ 'z')) || (decide ('A' ≤ c) && decide (c ≤ 'Z')) ||
    isDig c || decide (c = '_')

/-- ASCII lower-casing, the model of `str.lower()`. -/
def lowChar (c : Char) : Char :=
  if decide ('A' ≤ c) && decide (c ≤ 'Z') then Char.ofNat (c.toNat + 32) else c

/-- ASCII upper-casing, the model of `str.upper()`. -/
def upChar (c : Char) : Char :=
  if decide ('a' ≤ c) && decide (c ≤ 'z') then Char.ofNat (c.toNat - 32) else c

def lowStr (cs : List Char) : List Char := cs.map lowChar

/-- Number of leading ASCII digits. -/
def digitRun : List Char → Nat
  | [] => 0
  | c :: cs => if isDig c then digitRun cs + 1 else 0

/-- Number of leading whitespace characters. -/
def spaceRun : List Char → Nat
  | [] => 0
  | c :: cs => if isSpc c then spaceRun cs + 1 else 0

/-- Numeric value of a digit list (most significant first), accumulator style. -/
def digitsVal : List Char → Nat → Nat
  | [], acc => acc
  | c :: cs, acc => digitsVal cs (acc * 10 + (c.toNat - '0'.toNat))

/-- Exact decimal fraction `mant / 10 ^ exp`: the model of a Python float
value produced by the engine (all of its arithmetic is decimal). -/
structure DecF where
  mant : ℤ
  exp : ℕ
deriving DecidableEq, Repr

/-- Interpretation of a `DecF` as a rational number. -/
def DecF.toQ (a : DecF) : ℚ := (a.mant : ℚ) / 10 ^ a.exp

/-- Binary integer exponentiation with explicit fuel, so that concrete
values reduce inside the kernel in logarithmically many steps. -/
def ipowAux : ℕ → ℤ → ℕ → ℤ
  | 0, _, _ => 1
  | fuel + 1, b, n =>
      if n = 0 then 1
      else (if n % 2 = 1 then b else 1) * ipowAux fuel (b * b) (n / 2)

/-- `ipow b n = b ^ n` (see `ipow_eq`). -/
def ipow (b : ℤ) (n : ℕ) : ℤ := ipowAux (n + 1) b n

/-- Decidable `≤` on decimal fractions (cross multiplication). -/
def DecF.ble (a b : DecF) : Bool :=
  decide (a.mant * ipow 10 b.exp ≤ b.mant * ipow 10 a.exp)

/-- Decidable `<` on decimal fractions (cross multiplication). -/
def DecF.blt (a b : DecF) : Bool :=
  decide (a.mant * ipow 10 b.exp < b.mant * ipow 10 a.exp)

/-- Decidable value equality on decimal fractions (cross multiplication). -/
def DecF.beqv (a b : DecF) : Bool :=
  decide (a.mant * ipow 10 b.exp = b.mant * ipow 10 a.exp)

def DecF.mul (a b : DecF) : DecF := ⟨a.mant * b.mant, a.exp + b.exp⟩

def DecF.powN (a : DecF) (n : ℕ) : DecF := ⟨ipow a.mant n, a.exp * n⟩

/-- Division by `100` (percent literals are stored as fractions). -/
def DecF.div100 (a : DecF) : DecF := ⟨a.mant, a.exp + 2⟩

/-- Multiplication by `10 ^ k`. -/
def DecF.mulTen (a : DecF) (k : ℕ) : DecF := ⟨a.mant * ipow 10 k, a.exp⟩

/-- Division by `10 ^ k`. -/
def DecF.divTen (a : DecF) (k : ℕ) : DecF := ⟨a.mant, a.exp + k⟩

/-- Model of Python `float(s)` on the shapes a cleaned numeric literal can
take: optional minus sign, an integer digit run, optionally a dot and a
further digit run; at least one digit must be present (otherwise
`ValueError`, i.e. `none`). -/
def parseFloatD (cs : List Char) : Option DecF :=
  let p : Bool × List Char := match cs with
    | c :: r => if c = '-' then (true, r) else (false, c :: r)
    | [] => (false, [])
  let i := digitRun p.2
  let ip := p.2.take i
  let rest := p.2.drop i
  let res : Option DecF :=
    match rest with
    | [] => if i = 0 then none else some ⟨digitsVal ip 0, 0⟩
    | c :: fr =>
        if c = '.' then
          let f := digitRun fr
          if fr.drop f ≠ [] then none
          else if i = 0 ∧ f = 0 then none
          else some ⟨(digitsVal ip 0 : ℤ) * ipow 10 f + digitsVal (fr.take f) 0, f⟩
        else none
  res.map (fun q => if p.1 then ⟨-q.mant, q.exp⟩ else q)

/-- Model of Python `int(s)` on an optionally signed digit run. -/
def parseIntZ (cs : List Char) : Option ℤ :=
  match cs with
  | '+' :: r => if r ≠ [] ∧ digitRun r = r.length then some (digitsVal r 0) else none
  | '-' :: r => if r ≠ [] ∧ digitRun r = r.length then some (-(digitsVal r 0 : ℤ)) else none
  | r => if r ≠ [] ∧ digitRun r = r.length then some (digitsVal r 0) else none

/-- `-?\$?`: consumed length and remainder. -/
def signDollar (cs : List Char) : Nat × List Char :=
  let p : Nat × List Char :=
    match cs with
    | c :: r => if c = '-' then (1, r) else (0, c :: r)
    | [] => (0, [])
  match p.2 with
  | c :: r => if c = '$' then (p.1 + 1, r) else p
  | [] => p

/-- Greedy matching of `(?:,\d{3})*`: number of groups and characters
consumed.  Each group is a comma followed by exactly three digits. -/
def matchGroups : List Char → Nat × Nat
  | c :: a :: b :: d :: rest =>
      if decide (c = ',') && isDig a && isDig b && isDig d then
        let r := matchGroups rest
        (r.1 + 1, r.2 + 4)
      else (0, 0)
  | _ => (0, 0)

/-- `(?:\.\d+)?`: consumed length (0 when absent). -/
def matchFrac : List Char → Nat
  | [] => 0
  | c :: rest =>
      if c = '.' then (if digitRun rest = 0 then 0 else digitRun rest + 1) else 0

/-- `%?`: consumed length. -/
def matchPct : List Char → Nat
  | [] => 0
  | c :: _ => if c = '%' then 1 else 0

/-- First alternative of the literal number pattern
`-?\$?\d{1,3}(?:,\d{3})+(?:\.\d+)?%?`: it succeeds exactly when the
leading digit run has length 1–3 (regex backtracking over `\d{1,3}`
cannot succeed otherwise, since a shorter take leaves a digit where the
comma is required) and at least one comma group follows. -/
def matchAlt1 (cs : List Char) : Option Nat :=
  let sd := signDollar cs
  let r := digitRun sd.2
  if r = 0 ∨ 3 < r then none
  else
    let t := sd.2.drop r
    let g := matchGroups t
    if g.1 = 0 then none
    else
      let u := t.drop g.2
      let fn := matchFrac u
      let pn := matchPct (u.drop fn)
      some (sd.1 + r + g.2 + fn + pn)

/-- Second alternative `-?\$?\d+\.?\d*%?` (the plain-decimal family). -/
def matchAlt2 (cs : List Char) : Option Nat :=
  let sd := signDollar cs
  let r := digitRun sd.2
  if r = 0 then none
  else
    let t := sd.2.drop r
    let dn : Nat := match t with
      | c :: rest => if c = '.' then 1 + digitRun rest else 0
      | [] => 0
    let pn := matchPct (t.drop dn)
    some (sd.1 + r + dn + pn)

/-- The combined literal number pattern
`-?\$?\d{1,3}(?:,\d{3})+(?:\.\d+)?%?|-?\$?\d+\.?\d*%?` (ordered
alternation: the comma-grouped alternative is tried first). -/
def matchNumber (cs : List Char) : Option Nat :=
  match matchAlt1 cs with
  | some n => some n
  | none => matchAlt2 cs

/-- First alternative of the entity-scoped number pattern
`-?\$?\d{1,3}(?:,\d{3})*(?:\.\d+)?%?` — note the `*` on the comma
groups: it admits zero groups, so a digit run longer than three matches
just its first three digits. -/
def matchEntAlt1 (cs : List Char) : Option Nat :=
  let sd := signDollar cs
  let r := digitRun sd.2
  if r = 0 then none
  else
    let t := min r 3
    let u := sd.2.drop t
    let g := matchGroups u
    let v := u.drop g.2
    let fn := matchFrac v
    let pn := matchPct (v.drop fn)
    some (sd.1 + t + g.2 + fn + pn)

/-- The entity-scoped number pattern (`num_re` of
`extract_entities_with_spacy`). -/
def matchEntNum (cs : List Char) : Option Nat :=
  match matchEntAlt1 cs with
  | some n => some n
  | none => matchAlt2 cs

/-- Exponent part `[+-]?\d+` (for `[eE]`); `pre` is the length of the
mantissa, `whole` the suffix the whole match started at. -/
def expPart (whole : List Char) (pre : Nat) (r : List Char) :
    Option (Nat × List Char × List Char) :=
  let p : Nat × List Char := match r with
    | '+' :: t => (1, t)
    | '-' :: t => (1, t)
    | _ => (0, r)
  let d := digitRun p.2
  if d = 0 then none
  else some (pre + 1 + p.1 + d, whole.take pre, (whole.drop (pre + 1)).take (p.1 + d))

/-- Matcher for the scientific-notation pattern
`(\d+\.?\d*)[eE]([+-]?\d+)` at the head of the suffix; returns
(match length, mantissa group, exponent group).  The mantissa is the
greedy digit run, optionally a dot and a further greedy digit run; regex
backtracking cannot move the `[eE]` anywhere else, so the match succeeds
only when the character right after the mantissa is `e` or `E`. -/
def matchSci (cs : List Char) : Option (Nat × List Char × List Char) :=
  let a := digitRun cs
  if a = 0 then none
  else
    let mLen : Nat := match cs.drop a with
      | '.' :: r => a + 1 + digitRun r
      | _ => a
    match cs.drop mLen with
    | 'e' :: r => expPart cs mLen r
    | 'E' :: r => expPart cs mLen r
    | _ => none

/-- Matcher for the power-notation pattern `(\d+\.?\d*)\^(\d+)`; returns
(match length, mantissa group, exponent group). -/
def matchPowM (cs : List Char) : Option (Nat × List Char × List Char) :=
  let a := digitRun cs
  if a = 0 then none
  else
    let mLen : Nat := match cs.drop a with
      | '.' :: r => a + 1 + digitRun r
      | _ => a
    match cs.drop mLen with
    | '^' :: r =>
        let d := digitRun r
        if d = 0 then none else some (mLen + 1 + d, cs.take mLen, r.take d)
    | _ => none

/-- `re.finditer` for a matcher that also returns extra data: successive
leftmost non-overlapping matches, scanning left to right.  `fuel` bounds
the recursion; every step advances by at least one character, so
`text.length + 1` fuel is always enough. -/
def findIterG {α : Type} (m : List Char → Option (Nat × α)) :
    Nat → List Char → Nat → List (Nat × Nat × α)
  | 0, _, _ => []
  | _ + 1, [], _ => []
  | fuel + 1, c :: cs, i =>
      match m (c :: cs) with
      | some (n, a) =>
          if n = 0 then findIterG m fuel cs (i + 1)
          else (i, i + n, a) :: findIterG m fuel ((c :: cs).drop n) (i + n)
      | none => findIterG m fuel cs (i + 1)

/-- `re.finditer` for a plain matcher: list of half-open spans. -/
def findIter (m : List Char → Option Nat) (text : List Char) : List (Nat × Nat) :=
  (findIterG (fun cs => (m cs).map (fun n => (n, ()))) (text.length + 1) text 0).map
    (fun x => (x.1, x.2.1))

/-- `text[a:b]` on character lists. -/
def slice (text : List Char) (a b : Nat) : List Char := (text.drop a).take (b - a)

/-- The cleaning `replace('$','').replace(',','')` followed by
`replace('%','')` applied before `float()`. -/
def cleanCs (cs : List Char) : List Char :=
  cs.filter (fun c => decide (c ≠ '$') && decide (c ≠ ',') && decide (c ≠ '%'))

/-- Value of a scientific-notation match: `base * (10 ** exponent)`.
For `exponent ≥ 309` the conversion of the Python big integer
`10 ** exponent` to float raises `OverflowError` and the candidate is
skipped (`none`). -/
def sciValD (base : DecF) (e : ℤ) : Option DecF :=
  if (309 : ℤ) ≤ e then none
  else some (if 0 ≤ e then base.mulTen e.toNat else base.divTen (-e).toNat)

/-- Value of a power-notation match: `base ** exponent`, computed only
for exponents `≤ 1000`; a result at or beyond the float range
(`2 ^ 1024`) raises `OverflowError` in CPython and the candidate is
skipped. -/
def powValD (base : DecF) (e : Nat) : Option DecF :=
  if e ≤ 1000 then
    let v := base.powN e
    if v.blt ⟨ipow 2 1024, 0⟩ then some v else none
  else none

/-- All raw power-notation matches of a text (span and groups). -/
def powMatches (text : List Char) : List (Nat × Nat × List Char × List Char) :=
  findIterG matchPowM (text.length + 1) text 0

/-- All raw scientific-notation matches of a text (span and groups). -/
def sciMatches (text : List Char) : List (Nat × Nat × List Char × List Char) :=
  findIterG matchSci (text.length + 1) text 0

/-- Embedding of `parse_scientific_notation`: scientific-notation
candidates first, then power-notation candidates, each as
(value, original matched text, start, end). -/
def parse_scientific (text : List Char) : List (DecF × List Char × Nat × Nat) :=
  ((sciMatches text).filterMap (fun m => do
      let base ← parseFloatD m.2.2.1
      let e ← parseIntZ m.2.2.2
      let v ← sciValD base e
      pure (v, slice text m.1 m.2.1, m.1, m.2.1))) ++
    ((powMatches text).filterMap (fun m => do
      let base ← parseFloatD m.2.2.1
      let e ← parseIntZ m.2.2.2
      let v ← powValD base e.toNat
      pure (v, slice text m.1 m.2.1, m.1, m.2.1)))

/-- Word boundary `\b` between an optional previous character and an
optional next character. -/
def wbAt (prev next : Option Char) : Bool :=
  xor (match prev with | some c => isWrd c | none => false)
    (match next with | some c => isWrd c | none => false)

/-- Literal string match at the head of a suffix; returns the remainder. -/
def litAt : List Char → List Char → Option (List Char)
  | [], cs => some cs
  | _ :: _, [] => none
  | p :: ps, c :: cs => if p = c then litAt ps cs else none

/-- `\s+`: at least one whitespace character, greedy. -/
def spaces1 (cs : List Char) : Option (List Char) :=
  let n := spaceRun cs
  if n = 0 then none else some (cs.drop n)

/-- `\b` right after a word character that just got consumed. -/
def wbAfterWord : List Char → Bool
  | [] => true
  | c :: _ => !(isWrd c)

/-- `s?\b` after a scale word (both branches of the optional `s`). -/
def optS_wb (cs : List Char) : Bool :=
  (match cs with
   | 's' :: r => wbAfterWord r
   | _ => false) || wbAfterWord cs

/-- `(?:dollars?|pounds?|euros?)`: the optional trailing `s` is
unconstrained, so the alternation succeeds exactly on these prefixes. -/
def currencyAt (cs : List Char) : Bool :=
  (litAt "dollar".data cs).isSome || (litAt "pound".data cs).isSome ||
    (litAt "euro".data cs).isSome

/-- Scale pattern 1, `\b{number}\s+{word}\b`, tried at one position. -/
def p1At (num word : List Char) (prev : Option Char) (cs : List Char) : Bool :=
  wbAt prev cs.head? &&
    (match litAt num cs with
     | some r₁ =>
         (match spaces1 r₁ with
          | some r₂ =>
              (match litAt word r₂ with
               | some r₃ => wbAfterWord r₃
               | none => false)
          | none => false)
     | none => false)

/-- Scale pattern 2, `\b{word}\s+(?:of\s+)?(?:dollars?|pounds?|euros?)`. -/
def p2At (word : List Char) (prev : Option Char) (cs : List Char) : Bool :=
  wbAt prev cs.head? &&
    (match litAt word cs with
     | some r₁ =>
         (match spaces1 r₁ with
          | some r₂ =>
              currencyAt r₂ ||
                (match litAt "of".data r₂ with
                 | some r₃ =>
                     (match spaces1 r₃ with
                      | some r₄ => currencyAt r₄
                      | none => false)
                 | none => false)
          | none => false)
     | none => false)

/-- Scale pattern 3, `\bin\s+{word}s?\b`. -/
def p3At (word : List Char) (prev : Option Char) (cs : List Char) : Bool :=
  wbAt prev cs.head? &&
    (match litAt "in".data cs with
     | some r₁ =>
         (match spaces1 r₁ with
          | some r₂ =>
              (match litAt word r₂ with
               | some r₃ => optS_wb r₃
               | none => false)
          | none => false)
     | none => false)

/-- Scale pattern 4, `\({word}s?\)`. -/
def p4At (word : List Char) (cs : List Char) : Bool :=
  match cs with
  | '(' :: r =>
      (match litAt word r with
       | some r₁ =>
           (match r₁ with
            | ')' :: _ => true
            | 's' :: ')' :: _ => true
            | _ => false)
       | none => false)
  | _ => false

/-- Tail `\s+of\s+(?:dollars?|pounds?)` of scale pattern 5. -/
def p5Tail (cs : List Char) : Bool :=
  match spaces1 cs with
  | some r₂ =>
      (match litAt "of".data r₂ with
       | some r₃ =>
           (match spaces1 r₃ with
            | some r₄ => (litAt "dollar".data r₄).isSome || (litAt "pound".data r₄).isSome
            | none => false)
       | none => false)
  | none => false

/-- Scale pattern 5, `{word}s?\s+of\s+(?:dollars?|pounds?)` (no word
boundary in the source pattern). -/
def p5At (word : List Char) (cs : List Char) : Bool :=
  match litAt word cs with
  | some r₁ =>
      p5Tail r₁ ||
        (match r₁ with
         | 's' :: r => p5Tail r
         | _ => false)
  | none => false

/-- `re.search` for a position predicate: some start position in the
suffix (tracking the previous character for `\b`) satisfies it. -/
def searchB (step : Option Char → List Char → Bool) : Option Char → List Char → Bool
  | prev, [] => step prev []
  | prev, c :: cs => step prev (c :: cs) || searchB step (some c) cs

/-- `re.search` returning the first (leftmost) result of a positional
partial function. -/
def searchFirstO {α : Type} (step : List Char → Option α) : List Char → Option α
  | [] => step []
  | c :: cs =>
      match step (c :: cs) with
      | some a => some a
      | none => searchFirstO step cs

/-- Does any of the five surface patterns of a lexicon word match the
(lower-cased) context window?  This is the `re.search` disjunction the
source evaluates for one `scale_word`. -/
def scaleWordHit (num word ctx : List Char) : Bool :=
  searchB (fun p cs => p1At num word p cs) none ctx ||
    searchB (fun p cs => p2At word p cs) none ctx ||
    searchB (fun p cs => p3At word p cs) none ctx ||
    searchB (fun _ cs => p4At word cs) none ctx ||
    searchB (fun _ cs => p5At word cs) none ctx

/-- The scale lexicon `SCALE_MULTIPLIERS`, in Python dict insertion
order. -/
def SCALE_MULTIPLIERS : List (String × DecF) :=
  [("trillion", ⟨1000000000000, 0⟩), ("trillions", ⟨1000000000000, 0⟩),
   ("billion", ⟨1000000000, 0⟩), ("billions", ⟨1000000000, 0⟩),
   ("million", ⟨1000000, 0⟩), ("millions", ⟨1000000, 0⟩),
   ("thousand", ⟨1000, 0⟩), ("thousands", ⟨1000, 0⟩),
   ("hundred", ⟨100, 0⟩), ("hundreds", ⟨100, 0⟩),
   ("tn", ⟨1000000000000, 0⟩), ("bn", ⟨1000000000, 0⟩),
   ("mn", ⟨1000000, 0⟩), ("mil", ⟨1000000, 0⟩), ("k", ⟨1000, 0⟩),
   ("giga", ⟨1000000000, 0⟩), ("mega", ⟨1000000, 0⟩), ("kilo", ⟨1000, 0⟩),
   ("b", ⟨1000000000, 0⟩), ("m", ⟨1000000, 0⟩)]

/-- The word-scale loop of `extract_numbers_with_context`: for each
lexicon entry in order, if one of its patterns matches the context and
its value is strictly greater than the current best, it becomes the new
best. -/
def scaleFold (num ctx : List Char) :
    List (String × DecF) → DecF → Option String → DecF × Option String
  | [], m, f => (m, f)
  | (w, v) :: rest, m, f =>
      if scaleWordHit num w.data ctx && m.blt v then scaleFold num ctx rest v (some w)
      else scaleFold num ctx rest m f

/-- Is a character one of the abbreviation letters `[KMBT]`
(case-insensitively)? -/
def abbrevLetter (c : Char) : Bool :=
  decide (lowChar c = 'k') || decide (lowChar c = 'm') || decide (lowChar c = 'b') ||
    decide (lowChar c = 't')

/-- The local `abbrev_multipliers` table, keyed by the lower-cased
letter. -/
def abbrevMult (c : Char) : DecF :=
  if c = 'k' then ⟨1000, 0⟩
  else if c = 'm' then ⟨1000000, 0⟩
  else if c = 'b' then ⟨1000000000, 0⟩
  else if c = 't' then ⟨1000000000000, 0⟩
  else ⟨1, 0⟩

/-- The abbreviation pattern `{number}\s*([KMBT])\b` tried at one
position of the raw (not lower-cased) window; returns the captured
letter.  The number literal contains no letters, so the `IGNORECASE`
flag only affects the letter class. -/
def abbrevAt (num : List Char) (cs : List Char) : Option Char :=
  match litAt num cs with
  | some r₁ =>
      (match r₁.drop (spaceRun r₁) with
       | c :: r₃ => if abbrevLetter c && wbAfterWord r₃ then some c else none
       | [] => none)
  | none => none

/-- The abbreviation-suffix step: only for a base value below 1000 with
the word-scale multiplier still 1.0 does the source search the window
for `{number}\s*([KMBT])\b` and apply the abbreviation multiplier. -/
def resolveMult (num window : List Char) (base : DecF) (wm : DecF × Option String) :
    DecF × Option String :=
  if base.blt ⟨1000, 0⟩ && wm.1.beqv ⟨1, 0⟩ then
    match searchFirstO (abbrevAt num) window with
    | some c => (abbrevMult (lowChar c), some ⟨[upChar c]⟩)
    | none => wm
  else wm

/-- Digits of a natural number, most significant first (`fuel` bounds
the recursion; 44 digits cover every value the engine can format). -/
def natDigitsAux : Nat → Nat → List Char
  | 0, _ => []
  | _ + 1, 0 => []
  | fuel + 1, n => natDigitsAux fuel (n / 10) ++ [Char.ofNat ('0'.toNat + n % 10)]

def natDigits (n : Nat) : List Char :=
  if n = 0 then ['0'] else natDigitsAux 44 n

/-- Insert thousands separators into a reversed digit list. -/
def comma3Aux : List Char → List Char
  | a :: b :: c :: d :: rest => a :: b :: c :: ',' :: comma3Aux (d :: rest)
  | l => l

/-- Python's `{x:,.0f}` on the integral multipliers of the engine:
digits grouped in threes by commas. -/
def commaFmtD (d : DecF) : String :=
  ⟨(comma3Aux (natDigits (d.mant.toNat / 10 ^ d.exp)).reverse).reverse⟩

/-- The `context_info` string: the raw literal, plus scale information
when a scale was found. -/
def ctxInfo (numStr : String) (found : Option String) (mult : DecF) : String :=
  match found with
  | none => numStr
  | some w => numStr ++ " (scaled by " ++ w ++ ": x" ++ commaFmtD mult ++ ")"

/-- The base-value computation of the literal matcher: clean the
literal, parse it, and divide by 100 when it carries a percent sign. -/
def litBase (numStr : List Char) : Option DecF :=
  match parseFloatD (cleanCs numStr) with
  | none => none
  | some raw => some (if numStr.contains '%' then raw.div100 else raw)

/-- Per-candidate processing of the literal matcher (context windows,
base value, word scales, abbreviation suffix, context string). -/
def literalCandidate (text : List Char) (cw s e : Nat) : Option (DecF × String) :=
  let numStr := slice text s e
  let a := s - cw
  let b := min text.length (e + cw)
  let ctx := lowStr (slice text a b)
  match litBase numStr with
  | none => none
  | some base =>
      let wm := scaleFold numStr ctx SCALE_MULTIPLIERS ⟨1, 0⟩ none
      let mf := resolveMult numStr (slice text a b) base wm
      some (base.mul mf.1, ctxInfo ⟨numStr⟩ mf.2 mf.1)

/-- The half-open-span overlap test of the source:
`not (number_end <= s or number_pos >= e)`. -/
def spanOverlaps (a b : Nat × Nat) : Bool :=
  decide (b.1 < a.2) && decide (a.1 < b.2)

/-- The literal-matcher loop: each match is dropped when its span
overlaps a used span; otherwise it is processed, its span is added to
the used spans and its resolved value is emitted. -/
def literalLoop (text : List Char) (cw : Nat) :
    List (Nat × Nat) → List (Nat × Nat) → List (DecF × String × Nat × Nat)
  | [], _ => []
  | (s, e) :: ms, used =>
      if used.any (fun u => spanOverlaps (s, e) u) then literalLoop text cw ms used
      else
        match literalCandidate text cw s e with
        | none => literalLoop text cw ms used
        | some (v, c) => (v, c, s, e) :: literalLoop text cw ms ((s, e) :: used)

/-- All literal-pattern matches of a text. -/
def litMatches (text : List Char) : List (Nat × Nat) := findIter matchNumber text

/-- Scientific/power candidates as emitted entries: value and the raw
matched text, unchanged. -/
def sciEntries (text : List Char) : List (DecF × String × Nat × Nat) :=
  (parse_scientific text).map (fun x => (x.1, (⟨x.2.1⟩ : String), x.2.2.1, x.2.2.2))

/-- The entity-based contribution: empty when the collaborator is absent
or raised. -/
def entityEntries (entRes : Option (Except Unit (List (DecF × String × Nat × Nat)))) :
    List (DecF × String × Nat × Nat) :=
  match entRes with
  | some (Except.ok l) => l
  | _ => []

/-- The spans claimed before the literal matcher runs: scientific/power
spans first, then entity spans. -/
def usedSpans0 (text : List Char)
    (entRes : Option (Except Unit (List (DecF × String × Nat × Nat)))) : List (Nat × Nat) :=
  (parse_scientific text).map (fun x => (x.2.2.1, x.2.2.2)) ++
    (entityEntries entRes).map (fun x => (x.2.2.1, x.2.2.2))

/-- Span-instrumented embedding of `extract_numbers_with_context` with
`context_window = 50`: scientific/power entries, then entity entries,
then deduplicated literal entries, each with the span that produced
it. -/
def extractD (text : String)
    (entRes : Option (Except Unit (List (DecF × String × Nat × Nat)))) :
    List (DecF × String × Nat × Nat) :=
  sciEntries text.data ++ entityEntries entRes ++
    literalLoop text.data 50 (litMatches text.data) (usedSpans0 text.data entRes)

/-- The `(value, context)` output of `extract_numbers_with_context`,
values interpreted in `ℚ`. -/
def extract_numbers_with_context (text : String)
    (entRes : Option (Except Unit (List (DecF × String × Nat × Nat)))) :
    List (ℚ × String) :=
  (extractD text entRes).map (fun x => (x.1.toQ, x.2.1))

/-- The literal-only extraction result: scientific/power candidates plus
regex-literal candidates deduplicated against their spans only. -/
def literalOnlyExtract (text : String) : List (ℚ × String) :=
  ((sciEntries text.data ++
      literalLoop text.data 50 (litMatches text.data)
        ((parse_scientific text.data).map (fun x => (x.2.2.1, x.2.2.2)))).map
    (fun x => (x.1.toQ, x.2.1)))

/-- Embedding of `pdf_max_finder.extract_numbers_from_text` (the plain
variant): every match of the combined pattern, cleaned of `$`, `,`, `%`
and parsed; no percent division, no scaling. -/
def extract_numbers_from_textD (text : String) : List DecF :=
  (findIter matchNumber text.data).filterMap
    (fun se => parseFloatD (cleanCs (slice text.data se.1 se.2)))

def extract_numbers_from_text (text : String) : List ℚ :=
  (extract_numbers_from_textD text).map DecF.toQ

/-- A named entity as delivered by the spaCy collaborator. -/
structure Ent where
  label : String
  text : String
  start_char : Nat
  end_char : Nat
deriving DecidableEq, Repr

/-- `num_re.search` inside an entity's text: the leftmost match. -/
def entNumSearch : List Char → Option (List Char) :=
  searchFirstO (fun cs => (matchEntNum cs).map (fun n => cs.take n))

/-- The entity scale pattern `\b{word}s?\b` searched in the entity
context window. -/
def entScaleHit (word ctx : List Char) : Bool :=
  searchB
    (fun p cs =>
      wbAt p cs.head? &&
        (match litAt word cs with
         | some r => optS_wb r
         | none => false))
    none ctx

/-- The entity word-scale loop (same strictly-greater update rule). -/
def entScaleFold (ctx : List Char) :
    List (String × DecF) → DecF → Option String → DecF × Option String
  | [], m, f => (m, f)
  | (w, v) :: rest, m, f =>
      if entScaleHit w.data ctx && m.blt v then entScaleFold ctx rest v (some w)
      else entScaleFold ctx rest m f

/-- The entity base value: parse the matched literal, divide by 100 when
it carries `%` or the entity label is PERCENT. -/
def entBase (numStr : List Char) (label : String) : Option DecF :=
  match parseFloatD (cleanCs numStr) with
  | none => none
  | some raw =>
      some (if numStr.contains '%' || decide (label = "PERCENT") then raw.div100 else raw)

/-- Embedding of `extract_entities_with_spacy`, parameterized by the
entity sequence the collaborator returned. -/
def extract_entities_with_spacyD (fullText : String) (ents : List Ent) :
    List (DecF × String × Nat × Nat) :=
  ents.filterMap (fun ent =>
    if ent.label = "MONEY" ∨ ent.label = "QUANTITY" ∨ ent.label = "PERCENT" ∨
        ent.label = "CARDINAL" then
      match entNumSearch ent.text.data with
      | none => none
      | some numStr =>
          match entBase numStr ent.label with
          | none => none
          | some base =>
              let ctx := lowStr (slice fullText.data (ent.start_char - 20)
                (min fullText.data.length (ent.end_char + 50)))
              let mf := entScaleFold ctx SCALE_MULTIPLIERS ⟨1, 0⟩ none
              some (base.mul mf.1, ctxInfo ⟨numStr⟩ mf.2 mf.1, ent.start_char, ent.end_char)
    else none)

def extract_entities_with_spacy (fullText : String) (ents : List Ent) :
    List (ℚ × String × Nat × Nat) :=
  (extract_entities_with_spacyD fullText ents).map (fun x => (x.1.toQ, x.2))

/-- Stable descending insertion: the new element goes in front of the
first element it is greater than or equal to, so earlier elements of the
original list stay in front of later equal-valued ones — the model of
Python's stable `sorted(..., reverse=True)`. -/
def insDesc (x : DecF × String) : List (DecF × String) → List (DecF × String)
  | [] => [x]
  | y :: ys => if y.1.ble x.1 then x :: y :: ys else y :: insDesc x ys

/-- Stable sort by value, descending (`sorted(numbers, key=value,
reverse=True)`). -/
def pySortDesc : List (DecF × String) → List (DecF × String)
  | [] => []
  | x :: xs => insDesc x (pySortDesc xs)

/-- The ranking step of `find_largest_number_nlp`: `none` when no
numbers were found, otherwise the maximum (head of the descending sort)
together with the top-10 slice. -/
def rankNumbersD (l : List (DecF × String)) :
    Option ((DecF × String) × List (DecF × String)) :=
  match pySortDesc l with
  | [] => none
  | x :: xs => some (x, (x :: xs).take 10)

/-- Well-formed tail `(?:\.\d+)?%?$`: nothing, a percent sign, or a dot
with at least one digit optionally followed by a percent sign. -/
def fracOk : List Char → Bool
  | [] => true
  | c :: r =>
      if c = '%' then r.isEmpty
      else if c = '.' then
        decide (0 < digitRun r) &&
          (decide (r.drop (digitRun r) = []) || decide (r.drop (digitRun r) = ['%']))
      else false

/-- Well-formed comma-group area: one or more groups of a comma and
exactly three digits, followed by a well-formed tail. -/
def wfGroups : List Char → Bool
  | c :: a :: b :: d :: rest =>
      decide (c = ',') && isDig a && isDig b && isDig d && (wfGroups rest || fracOk rest)
  | _ => false

/-- A numeric literal with well-formed comma grouping: optional sign and
dollar, one to three leading digits, then comma groups of exactly three
digits, then an optional decimal tail and optional percent sign. -/
def isWFGrouped (cs : List Char) : Bool :=
  let sd := signDollar cs
  let r := digitRun sd.2
  decide (1 ≤ r) && decide (r ≤ 3) && wfGroups (sd.2.drop r)

/-- A numeric literal with malformed comma grouping: it has the shape of
a comma-grouped literal (digit runs separated by commas, then a
well-formed decimal/percent tail), but the leading run is longer than
three digits or some comma-separated run is not exactly three digits
long. -/
def MalformedGrouped (cs : List Char) : Prop :=
  ∃ sd g runs rest,
    cs = sd ++ g ++ (runs.map (fun r => ',' :: r)).flatten ++ rest ∧
    (sd = [] ∨ sd = ['-'] ∨ sd = ['$'] ∨ sd = ['-', '$']) ∧
    g ≠ [] ∧ g.all isDig ∧ runs ≠ [] ∧ (∀ r ∈ runs, r.all isDig = true) ∧
    fracOk rest = true ∧
    (3 < g.length ∨ ∃ r ∈ runs, r.length ≠ 3)

/-! ## Bridge lemmas between `DecF` and `ℚ` -/

theorem ipowAux_eq : ∀ (fuel : ℕ) (b : ℤ) (n : ℕ), n < 2 ^ fuel → ipowAux fuel b n = b ^ n := by
  intro fuel
  induction fuel with
  | zero =>
      intro b n h
      have hn : n = 0 := by omega
      simp [ipowAux, hn]
  | succ f ih =>
      intro b n h
      rw [ipowAux]
      by_cases h0 : n = 0
      · simp [h0]
      · rw [if_neg h0]
        have h2 : n / 2 < 2 ^ f := by
          have : 2 ^ (f + 1) = 2 * 2 ^ f := by ring
          omega
        rw [ih (b * b) (n / 2) h2]
        have hbb : (b * b) ^ (n / 2) = b ^ (2 * (n / 2)) := by
          rw [two_mul, pow_add, ← mul_pow]
        rcases Nat.mod_two_eq_zero_or_one n with hp | hp
        · rw [if_neg (by omega), one_mul, hbb]
          congr 1
          omega
        · rw [if_pos hp, hbb, ← pow_succ']
          congr 1
          omega

theorem ipow_eq (b : ℤ) (n : ℕ) : ipow b n = b ^ n :=
  ipowAux_eq (n + 1) b n
    ((Nat.lt_two_pow n).trans_le (Nat.pow_le_pow_right (by norm_num) (Nat.le_succ n)))

theorem tenpow_pos (n : ℕ) : (0 : ℚ) < 10 ^ n := by positivity

theorem DecF.ble_iff (a b : DecF) : a.ble b = true ↔ a.toQ ≤ b.toQ := by
  rw [DecF.ble, decide_eq_true_iff, ipow_eq, ipow_eq, DecF.toQ, DecF.toQ,
    div_le_div_iff₀ (tenpow_pos a.exp) (tenpow_pos b.exp)]
  constructor <;> intro h <;> exact_mod_cast h

theorem DecF.blt_iff (a b : DecF) : a.blt b = true ↔ a.toQ < b.toQ := by
  rw [DecF.blt, decide_eq_true_iff, ipow_eq, ipow_eq, DecF.toQ, DecF.toQ,
    div_lt_div_iff₀ (tenpow_pos a.exp) (tenpow_pos b.exp)]
  constructor <;> intro h <;> exact_mod_cast h

theorem DecF.beqv_iff (a b : DecF) : a.beqv b = true ↔ a.toQ = b.toQ := by
  rw [DecF.beqv, decide_eq_true_iff, ipow_eq, ipow_eq, DecF.toQ, DecF.toQ,
    div_eq_div_iff (ne_of_gt (tenpow_pos a.exp)) (ne_of_gt (tenpow_pos b.exp))]
  constructor <;> intro h <;> exact_mod_cast h

theorem DecF.toQ_mk_zero (m : ℤ) : DecF.toQ ⟨m, 0⟩ = (m : ℚ) := by
  simp [DecF.toQ]

theorem DecF.toQ_mul (a b : DecF) : (a.mul b).toQ = a.toQ * b.toQ := by
  simp only [DecF.mul, DecF.toQ, pow_add]
  push_cast
  ring

theorem DecF.toQ_powN (a : DecF) (n : ℕ) : (a.powN n).toQ = a.toQ ^ n := by
  simp only [DecF.powN, DecF.toQ, ipow_eq, pow_mul]
  push_cast [Int.cast_pow]
  rw [div_pow]

theorem DecF.toQ_div100 (a : DecF) : a.div100.toQ = a.toQ / 100 := by
  simp only [DecF.div100, DecF.toQ, pow_add]
  rw [div_div]
  norm_num

/-! ## C6: overlap precedence on `"1.23e6 dollars"` -/

/-- C6.  On the text `"1.23e6 dollars"`, the engine run without an
entity recognizer yields exactly one candidate — the scientific-notation
value `1230000.0` with context label `"1.23e6"`; the overlapping plain
literal matches (`"1.23"`, `"6"`) are dropped entirely. -/
theorem C6_sci_overlap_precedence :
    extract_numbers_with_context "1.23e6 dollars" none = [(1230000, "1.23e6")] := by
  have h : extractD "1.23e6 dollars" none = [(⟨123000000, 2⟩, "1.23e6", 0, 6)] := by decide
  simp only [extract_numbers_with_context, h, List.map_cons, List.map_nil, DecF.toQ]
  norm_num

/-! ## C10: scientific/power candidates are emitted unscaled -/

/-- C10.  Every candidate produced by the scientific/power-notation
matcher appears in the output with its computed value unchanged and its
context label equal to the raw matched text (these entries are the
prefix of the result, before any entity or literal entry); no scale
resolution is applied to them — in `"2.5e3 million"` the scale word does
not multiply the scientific value, which stays `2500`. -/
theorem C10_sci_no_scaling :
    (∀ (text : String) (entRes : Option (Except Unit (List (DecF × String × Nat × Nat)))),
        (extract_numbers_with_context text entRes).take (parse_scientific text.data).length =
          (parse_scientific text.data).map (fun x => (x.1.toQ, (⟨x.2.1⟩ : String)))) ∧
      extract_numbers_with_context "2.5e3 million" none = [(2500, "2.5e3")] := by
  constructor
  · intro text entRes
    have hlen : (parse_scientific text.data).length =
        ((sciEntries text.data).map
          (fun x : DecF × String × Nat × Nat => (x.1.toQ, x.2.1))).length := by
      simp [sciEntries]
    simp only [extract_numbers_with_context, extractD, List.map_append, List.append_assoc]
    rw [hlen, List.take_left]
    simp [sciEntries, List.map_map]
  · have h : extractD "2.5e3 million" none = [(⟨25000, 1⟩, "2.5e3", 0, 5)] := by decide
    simp only [extract_numbers_with_context, h, List.map_cons, List.map_nil, DecF.toQ]
    norm_num

/-! ## C8: degradation when the recognizer is absent or raises -/

/-- C8.  For every input text, when the entity collaborator is
absent (`none`) or raises (`some (Except.error _)`), the engine's output
equals the literal-only extraction result (scientific/power plus
regex-literal candidates); the entity component contributes nothing and
no error reaches the caller. -/
theorem C8_recognizer_degradation :
    ∀ text : String,
      extract_numbers_with_context text none = literalOnlyExtract text ∧
        ∀ err : Unit,
          extract_numbers_with_context text (some (Except.error err)) =
            literalOnlyExtract text := by
  intro text
  refine ⟨?_, fun err => ?_⟩ <;>
    simp [extract_numbers_with_context, extractD, literalOnlyExtract, entityEntries, usedSpans0]

/-! ## C4: percent literals as fractions -/

/-- C4 counterexample.  The plain-regex variant
(`pdf_max_finder.extract_numbers_from_text`) stores `"50%"` as `50.0`,
not as the fraction `0.5`: its cleaning strips the percent sign without
dividing by 100, so the claim fails for that matcher. -/
theorem C4_counterexample :
    extract_numbers_from_text "50%" = [50] ∧ (50 : ℚ) ≠ 50 / 100 := by
  constructor
  · have h : extract_numbers_from_textD "50%" = [⟨50, 0⟩] := by decide
    simp only [extract_numbers_from_text, h, List.map_cons, List.map_nil, DecF.toQ]
    norm_num
  · norm_num

/-- C4 (amended).  In the NLP variant, every matcher that produces a
numeric candidate from a percent literal stores the base value
pre-divided by 100: the literal matcher (`litBase`) and the entity-based
matcher (`entBase`) both divide by 100 whenever the literal carries `%`,
division by 100 is exact on values (`toQ`), and concretely `"50%"`
produces base value `0.5` in both matchers.  (The plain-regex variant
does not divide — see the counterexample.) -/
theorem C4_percent_fraction_nlp :
    (∀ (ns : List Char) (raw : DecF), parseFloatD (cleanCs ns) = some raw →
        ns.contains '%' = true → litBase ns = some raw.div100) ∧
    (∀ (ns : List Char) (label : String) (raw : DecF), parseFloatD (cleanCs ns) = some raw →
        ns.contains '%' = true → entBase ns label = some raw.div100) ∧
    (∀ a : DecF, a.div100.toQ = a.toQ / 100) ∧
    extract_numbers_with_context "50%" none = [(1 / 2, "50%")] ∧
    extract_entities_with_spacy "50%" [⟨"MONEY", "50%", 0, 3⟩] = [(1 / 2, "50%", 0, 3)] := by
  refine ⟨?_, ?_, DecF.toQ_div100, ?_, ?_⟩
  · intro ns raw h hp
    simp only [litBase, h, hp]
    simp
  · intro ns label raw h hp
    simp only [entBase, h, hp, Bool.true_or]
    simp
  · have h : extractD "50%" none = [(⟨50, 2⟩, "50%", 0, 3)] := by decide
    simp only [extract_numbers_with_context, h, List.map_cons, List.map_nil, DecF.toQ]
    norm_num
  · have h : extract_entities_with_spacyD "50%" [⟨"MONEY", "50%", 0, 3⟩] =
        [(⟨50, 2⟩, "50%", 0, 3)] := by decide
    simp only [extract_entities_with_spacy, h, List.map_cons, List.map_nil, DecF.toQ]
    norm_num

theorem C4_percent_fraction_nlp_witness :
    litBase "50%".data = some (DecF.div100 ⟨50, 0⟩) ∧
      entBase "50%".data "MONEY" = some (DecF.div100 ⟨50, 0⟩) :=
  ⟨C4_percent_fraction_nlp.1 "50%".data ⟨50, 0⟩ (by decide) (by decide),
   C4_percent_fraction_nlp.2.1 "50%".data "MONEY" ⟨50, 0⟩ (by decide) (by decide)⟩

/-! ## C5: the power-notation exponent cap -/

/-- C5 counterexample.  `"10^400"` is a power-notation match whose
exponent `400` does not exceed the cap of `1000`, yet it produces no
candidate: `10.0 ** 400` overflows the float range and CPython raises
`OverflowError`, which the source catches by skipping the candidate.
So "otherwise the candidate's value is mantissa raised to the exponent"
fails as stated. -/
theorem C5_counterexample :
    powMatches "10^400".data = [(0, 6, "10".data, "400".data)] ∧
      (400 : ℕ) ≤ 1000 ∧ parse_scientific "10^400".data = [] := by
  exact ⟨by decide, by norm_num, by decide⟩

/-- C5 (amended).  A power-notation match with exponent above 1000
is silently discarded; otherwise, provided the value `mantissa ^
exponent` stays below the float-overflow threshold `2 ^ 1024`, the
candidate's value is exactly `mantissa ^ exponent` (values at or beyond
the threshold are likewise discarded, not errored).  Concretely
`"2^2000"` produces no candidate while `"2^10"` produces `1024.0`. -/
theorem C5_power_cap :
    (∀ (b : DecF) (e : ℕ), 1000 < e → powValD b e = none) ∧
    (∀ (b : DecF) (e : ℕ), e ≤ 1000 → b.toQ ^ e < 2 ^ 1024 →
        ∃ v, powValD b e = some v ∧ v.toQ = b.toQ ^ e) ∧
    parse_scientific "2^2000".data = [] ∧
    parse_scientific "2^10".data = [(⟨1024, 0⟩, "2^10".data, 0, 4)] := by
  refine ⟨?_, ?_, by decide, by decide⟩
  · intro b e he
    simp [powValD, he.not_le]
  · intro b e he hv
    refine ⟨b.powN e, ?_, DecF.toQ_powN b e⟩
    have hblt : (b.powN e).blt ⟨ipow 2 1024, 0⟩ = true := by
      rw [DecF.blt_iff, DecF.toQ_powN, ipow_eq, DecF.toQ_mk_zero]
      push_cast
      exact hv
    simp [powValD, he, hblt]

theorem C5_power_cap_witness :
    powValD ⟨2, 0⟩ 2000 = none ∧
      ∃ v, powValD ⟨2, 0⟩ 10 = some v ∧ v.toQ = (DecF.toQ ⟨2, 0⟩) ^ 10 :=
  ⟨C5_power_cap.1 ⟨2, 0⟩ 2000 (by norm_num),
   C5_power_cap.2.1 ⟨2, 0⟩ 10 (by norm_num)
     (by rw [DecF.toQ_mk_zero]; norm_num)⟩

/-! ## C3: the K/M/B/T abbreviation suffix -/

/-- C3.  `"150K"` resolves to `150000.0` via the trailing-letter
rule, while `"1500K"` stays `1500.0` (a base value of at least 1000
disables abbreviation matching).  Structurally, on `resolveMult`: the
abbreviation check never runs when a word-based multiplier was already
chosen (multiplier different from 1.0), never runs when the base value
is at least 1000, and when it runs and finds a trailing letter it
applies that letter's fixed multiplier. -/
theorem C3_abbrev_suffix :
    extract_numbers_with_context "150K" none = [(150000, "150 (scaled by K: x1,000)")] ∧
    extract_numbers_with_context "1500K" none = [(1500, "1500")] ∧
    (∀ (num window : List Char) (base : DecF) (wm : DecF × Option String),
        wm.1.toQ ≠ 1 → resolveMult num window base wm = wm) ∧
    (∀ (num window : List Char) (base : DecF) (wm : DecF × Option String),
        1000 ≤ base.toQ → resolveMult num window base wm = wm) ∧
    (∀ (num window : List Char) (base : DecF) (wm : DecF × Option String) (c : Char),
        base.toQ < 1000 → wm.1.toQ = 1 →
        searchFirstO (abbrevAt num) window = some c →
        resolveMult num window base wm = (abbrevMult (lowChar c), some ⟨[upChar c]⟩)) := by
  refine ⟨?_, ?_, ?_, ?_, ?_⟩
  · have h : extractD "150K" none = [(⟨150000, 0⟩, "150 (scaled by K: x1,000)", 0, 3)] := by
      decide
    simp only [extract_numbers_with_context, h, List.map_cons, List.map_nil, DecF.toQ]
    norm_num
  · have h : extractD "1500K" none = [(⟨1500, 0⟩, "1500", 0, 4)] := by decide
    simp only [extract_numbers_with_context, h, List.map_cons, List.map_nil, DecF.toQ]
    norm_num
  · intro num window base wm hne
    have hb : wm.1.beqv ⟨1, 0⟩ = false := by
      rw [← Bool.not_eq_true, DecF.beqv_iff, DecF.toQ_mk_zero]
      simpa using hne
    simp [resolveMult, hb]
  · intro num window base wm hge
    have hb : base.blt ⟨1000, 0⟩ = false := by
      rw [← Bool.not_eq_true, DecF.blt_iff, DecF.toQ_mk_zero]
      push_cast
      exact not_lt.mpr hge
    simp [resolveMult, hb]
  · intro num window base wm c hlt heq hsearch
    have hb : base.blt ⟨1000, 0⟩ = true := by
      rw [DecF.blt_iff, DecF.toQ_mk_zero]
      push_cast
      exact hlt
    have he : wm.1.beqv ⟨1, 0⟩ = true := by
      rw [DecF.beqv_iff, DecF.toQ_mk_zero]
      simpa using heq
    simp [resolveMult, hb, he, hsearch]

theorem C3_abbrev_suffix_witness :
    resolveMult "150".data "150K".data ⟨150, 0⟩ (⟨1, 0⟩, none) =
      (abbrevMult (lowChar 'K'), some ⟨[upChar 'K']⟩) :=
  C3_abbrev_suffix.2.2.2.2 "150".data "150K".data ⟨150, 0⟩ (⟨1, 0⟩, none) 'K'
    (by rw [DecF.toQ_mk_zero]; norm_num) (by rw [DecF.toQ_mk_zero]; norm_num) (by decide)

/-! ## C2: the word-scale resolution loop -/

/-- Full characterization of the strictly-greater update fold: the
result value dominates the initial value and every matching entry, an
unimproved fold returns its inputs unchanged, and an improved fold
returns the value of some matching entry together with the first entry
(in iteration order) achieving that value. -/
theorem scaleFold_spec (num ctx : List Char) :
    ∀ (L : List (String × DecF)) (m₀ : DecF) (f₀ : Option String),
      m₀.toQ ≤ (scaleFold num ctx L m₀ f₀).1.toQ ∧
      (∀ p ∈ L, scaleWordHit num p.1.data ctx = true →
          p.2.toQ ≤ (scaleFold num ctx L m₀ f₀).1.toQ) ∧
      ((scaleFold num ctx L m₀ f₀).1.toQ = m₀.toQ → scaleFold num ctx L m₀ f₀ = (m₀, f₀)) ∧
      (m₀.toQ < (scaleFold num ctx L m₀ f₀).1.toQ →
        (∃ p ∈ L, scaleWordHit num p.1.data ctx = true ∧
            p.2.toQ = (scaleFold num ctx L m₀ f₀).1.toQ) ∧
          (scaleFold num ctx L m₀ f₀).2 =
            (L.find? (fun p => scaleWordHit num p.1.data ctx &&
                p.2.beqv (scaleFold num ctx L m₀ f₀).1)).map Prod.fst) := by
  intro L
  induction L with
  | nil =>
      intro m₀ f₀
      exact ⟨le_refl _, by simp [scaleFold], fun _ => rfl, fun h => absurd h (lt_irrefl _)⟩
  | cons hd tl ih =>
      intro m₀ f₀
      obtain ⟨w, v⟩ := hd
      cases hhit : scaleWordHit num w.data ctx with
      | false =>
          have hfold : scaleFold num ctx ((w, v) :: tl) m₀ f₀ = scaleFold num ctx tl m₀ f₀ := by
            simp [scaleFold, hhit]
          obtain ⟨g1, g2, g3, g4⟩ := ih m₀ f₀
          rw [hfold]
          refine ⟨g1, ?_, g3, ?_⟩
          · intro p hp hp_hit
            rcases List.mem_cons.mp hp with rfl | hp
            · rw [hp_hit] at hhit
              cases hhit
            · exact g2 p hp hp_hit
          · intro hlt
            obtain ⟨⟨p, hp, h1, h2⟩, hfind⟩ := g4 hlt
            refine ⟨⟨p, List.mem_cons_of_mem _ hp, h1, h2⟩, ?_⟩
            rw [hfind, List.find?_cons_of_neg _ (by simp [hhit])]
      | true =>
          cases hblt : m₀.blt v with
          | false =>
              have hfold : scaleFold num ctx ((w, v) :: tl) m₀ f₀ =
                  scaleFold num ctx tl m₀ f₀ := by
                simp [scaleFold, hhit, hblt]
              have hvle : v.toQ ≤ m₀.toQ := by
                by_contra hcon
                have := (DecF.blt_iff m₀ v).mpr (lt_of_not_le hcon)
                rw [this] at hblt
                cases hblt
              obtain ⟨g1, g2, g3, g4⟩ := ih m₀ f₀
              rw [hfold]
              refine ⟨g1, ?_, g3, ?_⟩
              · intro p hp hp_hit
                rcases List.mem_cons.mp hp with rfl | hp
                · exact le_trans hvle g1
                · exact g2 p hp hp_hit
              · intro hlt
                obtain ⟨⟨p, hp, h1, h2⟩, hfind⟩ := g4 hlt
                refine ⟨⟨p, List.mem_cons_of_mem _ hp, h1, h2⟩, ?_⟩
                have hb : v.beqv (scaleFold num ctx tl m₀ f₀).1 = false := by
                  rw [← Bool.not_eq_true, DecF.beqv_iff]
                  exact ne_of_lt (lt_of_le_of_lt hvle hlt)
                rw [hfind, List.find?_cons_of_neg _ (by simp [hb])]
          | true =>
              have hfold : scaleFold num ctx ((w, v) :: tl) m₀ f₀ =
                  scaleFold num ctx tl v (some w) := by
                simp [scaleFold, hhit, hblt]
              have hlt : m₀.toQ < v.toQ := (DecF.blt_iff m₀ v).mp hblt
              obtain ⟨g1, g2, g3, g4⟩ := ih v (some w)
              rw [hfold]
              refine ⟨le_of_lt (lt_of_lt_of_le hlt g1), ?_, ?_, ?_⟩
              · intro p hp hp_hit
                rcases List.mem_cons.mp hp with rfl | hp
                · exact g1
                · exact g2 p hp hp_hit
              · intro heq
                exact absurd heq (ne_of_gt (lt_of_lt_of_le hlt g1))
              · intro _
                constructor
                · by_cases hv : (scaleFold num ctx tl v (some w)).1.toQ = v.toQ
                  · exact ⟨(w, v), List.mem_cons_self _ _, hhit, hv.symm⟩
                  · have hlt2 : v.toQ < (scaleFold num ctx tl v (some w)).1.toQ :=
                      lt_of_le_of_ne g1 (fun h => hv h.symm)
                    obtain ⟨⟨p, hp, h1, h2⟩, _⟩ := g4 hlt2
                    exact ⟨p, List.mem_cons_of_mem _ hp, h1, h2⟩
                · by_cases hv : (scaleFold num ctx tl v (some w)).1.toQ = v.toQ
                  · have hr := g3 hv
                    rw [hr, List.find?_cons_of_pos _ (by simp [hhit, DecF.beqv_iff])]
                    rfl
                  · have hlt2 : v.toQ < (scaleFold num ctx tl v (some w)).1.toQ :=
                      lt_of_le_of_ne g1 (fun h => hv h.symm)
                    obtain ⟨_, hfind⟩ := g4 hlt2
                    have hb : v.beqv (scaleFold num ctx tl v (some w)).1 = false := by
                      rw [← Bool.not_eq_true, DecF.beqv_iff]
                      exact ne_of_lt hlt2
                    rw [hfind, List.find?_cons_of_neg _ (by simp [hb])]

/-- C2.  For every literal and every context window, the resolved
scale multiplier is the largest multiplier among all lexicon entries
whose surface patterns match the window (1.0 when none matches, in
which case no scale word is recorded), and the recorded scale word is
the first entry in lexicon iteration order whose value equals that
maximum — so a smaller multiplier never overrides a chosen one and the
first-declared synonym wins among equal-valued ones. -/
theorem C2_scale_multiplier_largest (num ctx : List Char) :
    (∀ p ∈ SCALE_MULTIPLIERS, scaleWordHit num p.1.data ctx = true →
        p.2.toQ ≤ (scaleFold num ctx SCALE_MULTIPLIERS ⟨1, 0⟩ none).1.toQ) ∧
    ((scaleFold num ctx SCALE_MULTIPLIERS ⟨1, 0⟩ none).1.toQ = 1 ∧
        (scaleFold num ctx SCALE_MULTIPLIERS ⟨1, 0⟩ none).2 = none ∨
      ∃ p ∈ SCALE_MULTIPLIERS, scaleWordHit num p.1.data ctx = true ∧
        p.2.toQ = (scaleFold num ctx SCALE_MULTIPLIERS ⟨1, 0⟩ none).1.toQ) ∧
    (1 < (scaleFold num ctx SCALE_MULTIPLIERS ⟨1, 0⟩ none).1.toQ →
      (scaleFold num ctx SCALE_MULTIPLIERS ⟨1, 0⟩ none).2 =
        (SCALE_MULTIPLIERS.find? (fun p => scaleWordHit num p.1.data ctx &&
            p.2.beqv (scaleFold num ctx SCALE_MULTIPLIERS ⟨1, 0⟩ none).1)).map Prod.fst) := by
  obtain ⟨g1, g2, g3, g4⟩ := scaleFold_spec num ctx SCALE_MULTIPLIERS ⟨1, 0⟩ none
  rw [DecF.toQ_mk_zero] at g1 g3 g4
  push_cast at g1 g3 g4
  refine ⟨g2, ?_, fun h => (g4 h).2⟩
  rcases eq_or_lt_of_le g1 with heq | hlt
  · left
    have hr := g3 heq.symm
    rw [hr, DecF.toQ_mk_zero]
    exact ⟨by norm_num, rfl⟩
  · right
    exact (g4 hlt).1

theorem C2_scale_multiplier_largest_witness :
    (scaleFold "3.5".data "3.5 million".data SCALE_MULTIPLIERS ⟨1, 0⟩ none).2 =
      (SCALE_MULTIPLIERS.find? (fun p => scaleWordHit "3.5".data p.1.data "3.5 million".data &&
          p.2.beqv (scaleFold "3.5".data "3.5 million".data SCALE_MULTIPLIERS ⟨1, 0⟩ none).1)).map
        Prod.fst :=
  (C2_scale_multiplier_largest "3.5".data "3.5 million".data).2.2 (by
    have h : scaleFold "3.5".data "3.5 million".data SCALE_MULTIPLIERS ⟨1, 0⟩ none =
        (⟨1000000, 0⟩, some "million") := by decide
    rw [h, DecF.toQ_mk_zero]
    norm_num)

/-! ## C9: the ranker -/

theorem mem_insDesc (x y : DecF × String) (l : List (DecF × String)) :
    y ∈ insDesc x l ↔ y = x ∨ y ∈ l := by
  induction l with
  | nil => simp [insDesc]
  | cons a as ih =>
      rw [insDesc]
      by_cases h : a.1.ble x.1 = true
      · rw [if_pos h]
        simp [List.mem_cons]
      · rw [if_neg h]
        simp only [List.mem_cons, ih]
        tauto

theorem insDesc_perm (x : DecF × String) (l : List (DecF × String)) :
    List.Perm (insDesc x l) (x :: l) := by
  induction l with
  | nil => exact List.Perm.refl _
  | cons a as ih =>
      rw [insDesc]
      by_cases h : a.1.ble x.1 = true
      · rw [if_pos h]
      · rw [if_neg h]
        exact List.Perm.trans (List.Perm.cons a ih) (List.Perm.swap x a as)

theorem pySortDesc_perm (l : List (DecF × String)) : List.Perm (pySortDesc l) l := by
  induction l with
  | nil => exact List.Perm.refl _
  | cons a as ih =>
      rw [pySortDesc]
      exact List.Perm.trans (insDesc_perm a (pySortDesc as)) (List.Perm.cons a ih)

theorem insDesc_sorted (x : DecF × String) (l : List (DecF × String))
    (h : List.Pairwise (fun a b => b.1.toQ ≤ a.1.toQ) l) :
    List.Pairwise (fun a b => b.1.toQ ≤ a.1.toQ) (insDesc x l) := by
  induction l with
  | nil => simp [insDesc]
  | cons a as ih =>
      obtain ⟨ha, has⟩ := List.pairwise_cons.mp h
      rw [insDesc]
      by_cases hb : a.1.ble x.1 = true
      · rw [if_pos hb]
        have hax : a.1.toQ ≤ x.1.toQ := (DecF.ble_iff a.1 x.1).mp hb
        refine List.Pairwise.cons ?_ h
        intro y hy
        rcases List.mem_cons.mp hy with rfl | hy
        · exact hax
        · exact le_trans (ha y hy) hax
      · rw [if_neg hb]
        have hxa : x.1.toQ ≤ a.1.toQ := by
          have hnot : ¬ a.1.toQ ≤ x.1.toQ := fun hh => hb ((DecF.ble_iff a.1 x.1).mpr hh)
          exact le_of_lt (lt_of_not_le hnot)
        refine List.Pairwise.cons ?_ (ih has)
        intro y hy
        rcases (mem_insDesc x y as).mp hy with rfl | hy
        · exact hxa
        · exact ha y hy

theorem pySortDesc_sorted (l : List (DecF × String)) :
    List.Pairwise (fun a b => b.1.toQ ≤ a.1.toQ) (pySortDesc l) := by
  induction l with
  | nil => simp [pySortDesc]
  | cons a as ih =>
      rw [pySortDesc]
      exact insDesc_sorted a (pySortDesc as) ih

theorem insDesc_filter (x : DecF × String) (l : List (DecF × String)) (v : ℚ) :
    (insDesc x l).filter (fun y => decide (y.1.toQ = v)) =
      if x.1.toQ = v then x :: l.filter (fun y => decide (y.1.toQ = v))
      else l.filter (fun y => decide (y.1.toQ = v)) := by
  induction l with
  | nil =>
      by_cases hx : x.1.toQ = v
      · simp [insDesc, hx]
      · simp [insDesc, hx]
  | cons a as ih =>
      rw [insDesc]
      by_cases hb : a.1.ble x.1 = true
      · rw [if_pos hb]
        by_cases hx : x.1.toQ = v
        · simp [List.filter, hx]
        · simp [List.filter, hx]
      · rw [if_neg hb]
        have hagt : x.1.toQ < a.1.toQ :=
          lt_of_not_le (fun hh => hb ((DecF.ble_iff a.1 x.1).mpr hh))
        by_cases ha : a.1.toQ = v
        · by_cases hx : x.1.toQ = v
          · exact absurd (hx.trans ha.symm) (ne_of_lt hagt)
          · simp [List.filter, ha, hx, ih]
        · by_cases hx : x.1.toQ = v
          · simp [List.filter, ha, hx, ih]
          · simp [List.filter, ha, hx, ih]

theorem pySortDesc_filter (l : List (DecF × String)) (v : ℚ) :
    (pySortDesc l).filter (fun y => decide (y.1.toQ = v)) =
      l.filter (fun y => decide (y.1.toQ = v)) := by
  induction l with
  | nil => rfl
  | cons a as ih =>
      rw [pySortDesc, insDesc_filter]
      by_cases ha : a.1.toQ = v
      · simp [List.filter, ha, ih]
      · simp [List.filter, ha, ih]

/-- C9.  The ranker signals "no numbers found" on the empty
sequence; on a non-empty sequence it reports the head of the stable
descending sort as the maximum (it dominates every input element) and
the first ten elements as the top slice.  The sort is a permutation,
descending by value, and stable (elements of every fixed value keep
their first-encountered relative order).  On values
`[5, 100, 3, 1000000]` the maximum is `1000000` and the top-3 slice is
`[1000000, 100, 5]`. -/
theorem C9_ranker :
    rankNumbersD [] = none ∧
    (∀ l : List (DecF × String), l ≠ [] → ∃ top rest, rankNumbersD l = some (top, rest) ∧
        rest = (pySortDesc l).take 10 ∧ ∀ x ∈ l, x.1.toQ ≤ top.1.toQ) ∧
    (∀ l : List (DecF × String),
        List.Perm (pySortDesc l) l ∧
        List.Pairwise (fun a b => b.1.toQ ≤ a.1.toQ) (pySortDesc l) ∧
        ∀ v : ℚ, (pySortDesc l).filter (fun y => decide (y.1.toQ = v)) =
          l.filter (fun y => decide (y.1.toQ = v))) ∧
    ((pySortDesc [(⟨5, 0⟩, "a"), (⟨100, 0⟩, "b"), (⟨3, 0⟩, "c"), (⟨1000000, 0⟩, "d")]).take 3).map
        (fun x => x.1.toQ) = [1000000, 100, 5] ∧
    (∃ top rest,
        rankNumbersD [(⟨5, 0⟩, "a"), (⟨100, 0⟩, "b"), (⟨3, 0⟩, "c"), (⟨1000000, 0⟩, "d")] =
          some (top, rest) ∧ top.1.toQ = 1000000) := by
  refine ⟨rfl, ?_, ?_, ?_, ?_⟩
  · intro l hl
    cases hs : pySortDesc l with
    | nil =>
        exfalso
        have := (pySortDesc_perm l).length_eq
        rw [hs] at this
        exact hl (List.length_eq_zero.mp this.symm)
    | cons x xs =>
        refine ⟨x, (x :: xs).take 10, ?_, ?_, ?_⟩
        · simp [rankNumbersD, hs]
        · rfl
        · intro y hy
          have hmem : y ∈ x :: xs := by
            rw [← hs]
            exact ((pySortDesc_perm l).mem_iff).mpr hy
          rcases List.mem_cons.mp hmem with rfl | hmem
          · exact le_refl _
          · have hp := pySortDesc_sorted l
            rw [hs] at hp
            exact (List.pairwise_cons.mp hp).1 y hmem
  · exact fun l => ⟨pySortDesc_perm l, pySortDesc_sorted l, pySortDesc_filter l⟩
  · have h : (pySortDesc [(⟨5, 0⟩, "a"), (⟨100, 0⟩, "b"), (⟨3, 0⟩, "c"),
        (⟨1000000, 0⟩, "d")]).take 3 = [(⟨1000000, 0⟩, "d"), (⟨100, 0⟩, "b"), (⟨5, 0⟩, "a")] := by
      decide
    rw [h]
    simp [DecF.toQ]
  · refine ⟨(⟨1000000, 0⟩, "d"),
      [(⟨1000000, 0⟩, "d"), (⟨100, 0⟩, "b"), (⟨5, 0⟩, "a"), (⟨3, 0⟩, "c")], by decide, ?_⟩
    rw [DecF.toQ_mk_zero]
    norm_num

theorem C9_ranker_witness :
    ∃ top rest,
      rankNumbersD [(⟨5, 0⟩, "a"), (⟨100, 0⟩, "b"), (⟨3, 0⟩, "c"), (⟨1000000, 0⟩, "d")] =
        some (top, rest) ∧
        rest = (pySortDesc [(⟨5, 0⟩, "a"), (⟨100, 0⟩, "b"), (⟨3, 0⟩, "c"),
          (⟨1000000, 0⟩, "d")]).take 10 ∧
        ∀ x ∈ [((⟨5, 0⟩ : DecF), "a"), (⟨100, 0⟩, "b"), (⟨3, 0⟩, "c"), (⟨1000000, 0⟩, "d")],
          x.1.toQ ≤ top.1.toQ :=
  C9_ranker.2.1 [(⟨5, 0⟩, "a"), (⟨100, 0⟩, "b"), (⟨3, 0⟩, "c"), (⟨1000000, 0⟩, "d")]
    (by simp)

/-! ## C1: span disjointness of the final result -/

/-- C1 counterexample.  On the text `"1e2^3"` the scientific match
`"1e2"` (span `[0,3)`) and the power match `"2^3"` (span `[2,5)`) are
both emitted into the final result, and their spans overlap in the
claimed sense (`a < d` and `c < b`): the engine never checks
scientific/power (or entity) candidates against each other. -/
theorem C1_counterexample :
    extractD "1e2^3" none = [(⟨100, 0⟩, "1e2", 0, 3), (⟨8, 0⟩, "2^3", 2, 5)] ∧
      spanOverlaps (0, 3) (2, 5) = true :=
  ⟨by decide, by decide⟩

theorem spanOverlaps_comm (a b : Nat × Nat) : spanOverlaps a b = spanOverlaps b a := by
  simp [spanOverlaps, Bool.and_comm]

theorem literalLoop_no_overlap (text : List Char) (cw : Nat) :
    ∀ (ms used : List (Nat × Nat)) (x : DecF × String × Nat × Nat),
      x ∈ literalLoop text cw ms used →
        ∀ u ∈ used, spanOverlaps (x.2.2.1, x.2.2.2) u = false := by
  intro ms
  induction ms with
  | nil =>
      intro used x hx
      simp [literalLoop] at hx
  | cons m ms ih =>
      intro used x hx u hu
      obtain ⟨s, e⟩ := m
      by_cases hov : used.any (fun u => spanOverlaps (s, e) u) = true
      · rw [literalLoop, if_pos hov] at hx
        exact ih used x hx u hu
      · rw [literalLoop, if_neg hov] at hx
        cases hcand : literalCandidate text cw s e with
        | none =>
            rw [hcand] at hx
            exact ih used x hx u hu
        | some vc =>
            obtain ⟨v, c⟩ := vc
            rw [hcand] at hx
            rcases List.mem_cons.mp hx with rfl | hx
            · have hf : used.any (fun u => spanOverlaps (s, e) u) = false :=
                Bool.eq_false_iff.mpr hov
              have := List.any_eq_false.mp hf u hu
              exact Bool.eq_false_iff.mpr this
            · exact ih ((s, e) :: used) x hx u (List.mem_cons_of_mem _ hu)

theorem literalLoop_pairwise (text : List Char) (cw : Nat) :
    ∀ ms used : List (Nat × Nat),
      List.Pairwise (fun a b => spanOverlaps (a.2.2.1, a.2.2.2) (b.2.2.1, b.2.2.2) = false)
        (literalLoop text cw ms used) := by
  intro ms
  induction ms with
  | nil =>
      intro used
      simp [literalLoop]
  | cons m ms ih =>
      intro used
      obtain ⟨s, e⟩ := m
      by_cases hov : used.any (fun u => spanOverlaps (s, e) u) = true
      · rw [literalLoop, if_pos hov]
        exact ih used
      · rw [literalLoop, if_neg hov]
        cases hcand : literalCandidate text cw s e with
        | none => exact ih used
        | some vc =>
            obtain ⟨v, c⟩ := vc
            refine List.Pairwise.cons ?_ (ih ((s, e) :: used))
            intro y hy
            have h1 := literalLoop_no_overlap text cw ms ((s, e) :: used) y hy (s, e)
              (List.mem_cons_self _ _)
            rw [spanOverlaps_comm]
            exact h1

/-- C1 (amended).  In the final result, no literal-matcher entry's
span overlaps the span of any other entry: every literal entry is
disjoint from all scientific/power and entity entries, and the literal
entries are pairwise disjoint.  (Scientific, power, and entity
candidates are never checked against each other — see the
counterexample.) -/
theorem C1_literal_spans_disjoint (text : String)
    (entRes : Option (Except Unit (List (DecF × String × Nat × Nat)))) :
    (∀ x ∈ literalLoop text.data 50 (litMatches text.data) (usedSpans0 text.data entRes),
        ∀ y ∈ sciEntries text.data ++ entityEntries entRes,
          spanOverlaps (x.2.2.1, x.2.2.2) (y.2.2.1, y.2.2.2) = false) ∧
    List.Pairwise (fun a b => spanOverlaps (a.2.2.1, a.2.2.2) (b.2.2.1, b.2.2.2) = false)
      (literalLoop text.data 50 (litMatches text.data) (usedSpans0 text.data entRes)) := by
  constructor
  · intro x hx y hy
    have hspan : (y.2.2.1, y.2.2.2) ∈ usedSpans0 text.data entRes := by
      rcases List.mem_append.mp hy with hy | hy
      · obtain ⟨z, hz, rfl⟩ := List.mem_map.mp hy
        exact List.mem_append.mpr (Or.inl (List.mem_map.mpr ⟨z, hz, rfl⟩))
      · exact List.mem_append.mpr (Or.inr (List.mem_map.mpr ⟨y, hy, rfl⟩))
    exact literalLoop_no_overlap text.data 50 _ _ x hx _ hspan
  · exact literalLoop_pairwise text.data 50 _ _

theorem C1_literal_spans_disjoint_witness : spanOverlaps (0, 1) (6, 9) = false :=
  (C1_literal_spans_disjoint "7 and 1e2" none).1 (⟨7, 0⟩, "7", 0, 1) (by decide)
    (⟨100, 0⟩, "1e2", 6, 9) (by decide)

/-! ## C7: comma grouping — digit-run toolbox -/

theorem digitRun_le_length (l : List Char) : digitRun l ≤ l.length := by
  induction l with
  | nil => simp [digitRun]
  | cons c cs ih =>
      rw [digitRun]
      by_cases h : isDig c = true
      · rw [if_pos h]
        simpa using ih
      · rw [if_neg h]
        simp

theorem digitRun_append_all (ds l : List Char) (h : ∀ c ∈ ds, isDig c = true) :
    digitRun (ds ++ l) = ds.length + digitRun l := by
  induction ds with
  | nil => simp
  | cons c cs ih =>
      rw [List.cons_append, digitRun, if_pos (h c (List.mem_cons_self _ _)),
        ih (fun x hx => h x (List.mem_cons_of_mem _ hx))]
      simp
      omega

theorem digitRun_all (ds : List Char) (h : ∀ c ∈ ds, isDig c = true) :
    digitRun ds = ds.length := by
  have := digitRun_append_all ds [] h
  simpa [digitRun] using this

theorem take_digitRun_all (l : List Char) : ∀ c ∈ l.take (digitRun l), isDig c = true := by
  induction l with
  | nil => simp
  | cons c cs ih =>
      rw [digitRun]
      by_cases h : isDig c = true
      · rw [if_pos h]
        intro x hx
        rw [List.take_succ_cons] at hx
        rcases List.mem_cons.mp hx with rfl | hx
        · exact h
        · exact ih x hx
      · rw [if_neg h]
        simp

theorem digitRun_cons_zero (c : Char) (l : List Char) (h : isDig c = false) :
    digitRun (c :: l) = 0 := by
  rw [digitRun, if_neg (by simp [h])]

theorem isDig_ne (c : Char) (h : isDig c = true) :
    c ≠ ',' ∧ c ≠ '.' ∧ c ≠ '%' ∧ c ≠ '$' ∧ c ≠ '-' := by
  refine ⟨?_, ?_, ?_, ?_, ?_⟩ <;> rintro rfl <;> revert h <;> decide

theorem fracOk_cons_ne (c : Char) (l : List Char) (h1 : c ≠ '%') (h2 : c ≠ '.') :
    fracOk (c :: l) = false := by
  rw [fracOk, if_neg h1, if_neg h2]

theorem fracOk_digitRun_zero (t : List Char) (h : fracOk t = true) : digitRun t = 0 := by
  cases t with
  | nil => rfl
  | cons c r =>
      by_cases h1 : c = '%'
      · subst h1
        exact digitRun_cons_zero _ _ (by decide)
      · by_cases h2 : c = '.'
        · subst h2
          exact digitRun_cons_zero _ _ (by decide)
        · rw [fracOk_cons_ne c r h1 h2] at h
          cases h

theorem matchGroups_cons_ne (c : Char) (l : List Char) (h : c ≠ ',') :
    matchGroups (c :: l) = (0, 0) := by
  rcases l with _ | ⟨a, _ | ⟨b, _ | ⟨d, rest⟩⟩⟩
  · rfl
  · rfl
  · rfl
  · simp [matchGroups, h]

theorem wfGroups_cons_ne (c : Char) (l : List Char) (h : c ≠ ',') :
    wfGroups (c :: l) = false := by
  rcases l with _ | ⟨a, _ | ⟨b, _ | ⟨d, rest⟩⟩⟩
  · rfl
  · rfl
  · rfl
  · simp [wfGroups, h]

theorem fracOk_iff_consume (t : List Char) :
    fracOk t = true ↔ matchFrac t + matchPct (t.drop (matchFrac t)) = t.length := by
  cases t with
  | nil => simp [fracOk, matchFrac, matchPct]
  | cons c r =>
      by_cases h1 : c = '%'
      · subst h1
        rw [fracOk, if_pos rfl, matchFrac, if_neg (by decide)]
        simp [matchPct, List.isEmpty_iff, List.length_eq_zero]
      · by_cases h2 : c = '.'
        · subst h2
          rw [fracOk, if_neg (by decide), if_pos rfl, matchFrac, if_pos rfl]
          have hfle := digitRun_le_length r
          by_cases hf : digitRun r = 0
          · rw [if_pos hf]
            simp only [hf, List.drop_zero, matchPct, if_neg (by decide : ¬('.' = '%'))]
            simp
          · rw [if_neg hf]
            rw [List.drop_succ_cons]
            have hld : (r.drop (digitRun r)).length = r.length - digitRun r :=
              List.length_drop _ _
            constructor
            · intro hok
              simp only [Bool.and_eq_true, Bool.or_eq_true, decide_eq_true_iff] at hok
              rcases hok.2 with hd | hd
              · rw [hd]
                have h0 : r.length - digitRun r = 0 := by rw [← hld, hd]; rfl
                simp [matchPct]
                omega
              · rw [hd]
                have h0 : r.length - digitRun r = 1 := by rw [← hld, hd]; rfl
                simp [matchPct]
                omega
            · intro hc
              simp only [Bool.and_eq_true, Bool.or_eq_true, decide_eq_true_iff]
              refine ⟨by omega, ?_⟩
              cases hdrop : r.drop (digitRun r) with
              | nil => exact Or.inl rfl
              | cons d rest2 =>
                  rw [hdrop] at hc
                  rw [matchPct] at hc
                  simp only [List.length_cons] at hc
                  by_cases hdp : d = '%'
                  · subst hdp
                    rw [if_pos rfl] at hc
                    right
                    have : rest2.length = 0 := by
                      have h1 := hld
                      rw [hdrop] at h1
                      simp at h1
                      omega
                    rw [List.length_eq_zero] at this
                    rw [this]
                  · rw [if_neg hdp] at hc
                    exfalso
                    have h1 := hld
                    rw [hdrop] at h1
                    simp at h1
                    omega
        · rw [fracOk_cons_ne c r h1 h2, matchFrac, if_neg h2]
          simp only [List.drop_zero, matchPct, if_neg h1]
          simp

theorem fracOk_head (c : Char) (r : List Char) (h : fracOk (c :: r) = true) :
    c = '%' ∨ c = '.' := by
  by_cases h1 : c = '%'
  · exact Or.inl h1
  · by_cases h2 : c = '.'
    · exact Or.inr h2
    · rw [fracOk_cons_ne c r h1 h2] at h
      cases h

theorem matchGroups_of_fracOk (t : List Char) (h : fracOk t = true) :
    matchGroups t = (0, 0) := by
  cases t with
  | nil => rfl
  | cons e r =>
      rcases fracOk_head e r h with rfl | rfl
      · exact matchGroups_cons_ne _ _ (by decide)
      · exact matchGroups_cons_ne _ _ (by decide)

theorem matchGroups_fst_zero (t : List Char) (h : (matchGroups t).1 = 0) :
    matchGroups t = (0, 0) := by
  rcases t with _ | ⟨c, _ | ⟨a, _ | ⟨b, _ | ⟨d, rest⟩⟩⟩⟩
  · rfl
  · rfl
  · rfl
  · rfl
  · rw [matchGroups] at h ⊢
    by_cases hc : (decide (c = ',') && isDig a && isDig b && isDig d) = true
    · rw [if_pos hc] at h
      simp at h
    · rw [if_neg hc]

/-- First half of the correspondence: a whole-area consumption by the
greedy group matcher (followed by the optional decimal tail and percent
sign) certifies well-formed grouping. -/
theorem wfGroups_of_consume : ∀ (k : ℕ) (t : List Char) (n : ℕ), matchGroups t = (k, n) →
    1 ≤ k →
    n + matchFrac (t.drop n) + matchPct ((t.drop n).drop (matchFrac (t.drop n))) = t.length →
    wfGroups t = true := by
  intro k
  induction k with
  | zero =>
      intro t n _ hk _
      omega
  | succ k ih =>
      intro t n hm hk hlen
      rcases t with _ | ⟨c, _ | ⟨a, _ | ⟨b, _ | ⟨d, rest⟩⟩⟩⟩
      · exfalso
        have h := congrArg Prod.fst hm
        simp [matchGroups] at h
      · exfalso
        have h := congrArg Prod.fst hm
        simp [matchGroups] at h
      · exfalso
        have h := congrArg Prod.fst hm
        simp [matchGroups] at h
      · exfalso
        have h := congrArg Prod.fst hm
        simp [matchGroups] at h
      · rw [matchGroups] at hm
        by_cases hcond : (decide (c = ',') && isDig a && isDig b && isDig d) = true
        · rw [if_pos hcond] at hm
          have h1 : (matchGroups rest).1 = k := by
            have := congrArg Prod.fst hm
            simpa using this
          have h2 : n = (matchGroups rest).2 + 4 := by
            have := congrArg Prod.snd hm
            simpa using this.symm
          subst h2
          rw [show ∀ m, (c :: a :: b :: d :: rest).drop (m + 4) = rest.drop m from
            fun m => rfl] at hlen
          simp only [List.length_cons] at hlen
          by_cases hk0 : (matchGroups rest).1 = 0
          · have hz := matchGroups_fst_zero rest hk0
            have hn0 : (matchGroups rest).2 = 0 := by rw [hz]
            rw [hn0] at hlen
            simp only [List.drop_zero] at hlen
            have hfrac : fracOk rest = true := (fracOk_iff_consume rest).mpr (by omega)
            rw [wfGroups, hcond, Bool.true_and, hfrac, Bool.or_true]
          · have hmr : matchGroups rest = (k, (matchGroups rest).2) := by
              rw [← h1]
            have hwf := ih rest (matchGroups rest).2 hmr (by omega) (by omega)
            rw [wfGroups, hcond, Bool.true_and, hwf, Bool.true_or]
        · rw [if_neg hcond] at hm
          exfalso
          have h := congrArg Prod.fst hm
          simp at h

/-- Second half of the correspondence: well-formed grouping forces the
greedy group matcher plus decimal/percent tail to consume the whole
area. -/
theorem consume_of_wfGroups : ∀ (N : ℕ) (t : List Char), t.length ≤ N → wfGroups t = true →
    ∃ k n, matchGroups t = (k, n) ∧ 1 ≤ k ∧
      n + matchFrac (t.drop n) + matchPct ((t.drop n).drop (matchFrac (t.drop n))) = t.length := by
  intro N
  induction N with
  | zero =>
      intro t hl h
      rcases t with _ | ⟨c, r⟩
      · exact absurd h Bool.false_ne_true
      · simp at hl
  | succ N ih =>
      intro t hl h
      rcases t with _ | ⟨c, _ | ⟨a, _ | ⟨b, _ | ⟨d, rest⟩⟩⟩⟩
      · exact absurd h Bool.false_ne_true
      · exact absurd h Bool.false_ne_true
      · exact absurd h Bool.false_ne_true
      · exact absurd h Bool.false_ne_true
      · rw [wfGroups] at h
        simp only [Bool.and_eq_true, Bool.or_eq_true, decide_eq_true_iff] at h
        obtain ⟨⟨⟨⟨hc, ha⟩, hb⟩, hd2⟩, hor⟩ := h
        have hcond : (decide (c = ',') && isDig a && isDig b && isDig d) = true := by
          simp [hc, ha, hb, hd2]
        rcases hor with hwf | hfrac
        · have hlrest : rest.length ≤ N := by
            simp only [List.length_cons] at hl
            omega
          obtain ⟨k, n, hm, hk, hlen⟩ := ih rest hlrest hwf
          refine ⟨k + 1, n + 4, ?_, by omega, ?_⟩
          · rw [matchGroups, if_pos hcond, hm]
          · rw [show ∀ m, (c :: a :: b :: d :: rest).drop (m + 4) = rest.drop m from
              fun m => rfl]
            simp only [List.length_cons]
            omega
        · refine ⟨1, 4, ?_, le_refl 1, ?_⟩
          · rw [matchGroups, if_pos hcond, matchGroups_of_fracOk rest hfrac]
          · rw [show (c :: a :: b :: d :: rest).drop (0 + 4) = rest from rfl]
            simp only [List.length_cons]
            have := (fracOk_iff_consume rest).mp hfrac
            omega

/-! ## C7: sign/dollar and whole-literal matching -/

theorem signDollar_decomp (cs : List Char) :
    ∃ pre, cs = pre ++ (signDollar cs).2 ∧ pre.length = (signDollar cs).1 ∧
      (pre = [] ∨ pre = ['-'] ∨ pre = ['$'] ∨ pre = ['-', '$']) := by
  rcases cs with _ | ⟨c, r⟩
  · exact ⟨[], rfl, rfl, Or.inl rfl⟩
  · by_cases hm : c = '-'
    · subst hm
      rcases r with _ | ⟨d, r2⟩
      · exact ⟨['-'], by simp [signDollar], by simp [signDollar], Or.inr (Or.inl rfl)⟩
      · by_cases hd : d = '$'
        · subst hd
          exact ⟨['-', '$'], by simp [signDollar], by simp [signDollar],
            Or.inr (Or.inr (Or.inr rfl))⟩
        · exact ⟨['-'], by simp [signDollar, hd], by simp [signDollar, hd],
            Or.inr (Or.inl rfl)⟩
    · by_cases hd : c = '$'
      · subst hd
        exact ⟨['$'], by simp [signDollar], by simp [signDollar], Or.inr (Or.inr (Or.inl rfl))⟩
      · exact ⟨[], by simp [signDollar, hm, hd], by simp [signDollar, hm, hd], Or.inl rfl⟩

theorem signDollar_of_shape (sd : List Char) (e : Char) (r : List Char)
    (h : sd = [] ∨ sd = ['-'] ∨ sd = ['$'] ∨ sd = ['-', '$']) (he : isDig e = true) :
    signDollar (sd ++ e :: r) = (sd.length, e :: r) := by
  have hne1 : e ≠ '$' := (isDig_ne e he).2.2.2.1
  have hne2 : e ≠ '-' := (isDig_ne e he).2.2.2.2
  rcases h with rfl | rfl | rfl | rfl
  · simp [signDollar, hne1, hne2]
  · simp [signDollar, hne1]
  · simp [signDollar]
  · simp [signDollar]

theorem matchAlt1_of_wf (cs : List Char) (h : isWFGrouped cs = true) :
    matchAlt1 cs = some cs.length := by
  rw [isWFGrouped] at h
  simp only [Bool.and_eq_true, decide_eq_true_iff] at h
  obtain ⟨⟨h1, h2⟩, h3⟩ := h
  obtain ⟨k, n, hm, hk, hlen⟩ := consume_of_wfGroups
    ((signDollar cs).2.drop (digitRun (signDollar cs).2)).length _ (le_refl _) h3
  obtain ⟨pre, hpre, hplen, _⟩ := signDollar_decomp cs
  have hrle : digitRun (signDollar cs).2 ≤ (signDollar cs).2.length := digitRun_le_length _
  have hcslen : cs.length = pre.length + (signDollar cs).2.length := by
    conv_lhs => rw [hpre]
    simp
  have htlen : ((signDollar cs).2.drop (digitRun (signDollar cs).2)).length =
      (signDollar cs).2.length - digitRun (signDollar cs).2 := List.length_drop _ _
  simp only [matchAlt1]
  rw [if_neg (by omega), hm]
  dsimp only
  rw [if_neg (by omega)]
  congr 1
  omega

theorem wf_of_matchAlt1 (cs : List Char) (h : matchAlt1 cs = some cs.length) :
    isWFGrouped cs = true := by
  simp only [matchAlt1] at h
  by_cases hr : digitRun (signDollar cs).2 = 0 ∨ 3 < digitRun (signDollar cs).2
  · rw [if_pos hr] at h
    cases h
  · rw [if_neg hr] at h
    by_cases hg : (matchGroups ((signDollar cs).2.drop (digitRun (signDollar cs).2))).1 = 0
    · rw [if_pos hg] at h
      cases h
    · rw [if_neg hg] at h
      have hsum := Option.some.inj h
      obtain ⟨pre, hpre, hplen, _⟩ := signDollar_decomp cs
      have hrle : digitRun (signDollar cs).2 ≤ (signDollar cs).2.length := digitRun_le_length _
      have hcslen : cs.length = pre.length + (signDollar cs).2.length := by
        conv_lhs => rw [hpre]
        simp
      have htlen : ((signDollar cs).2.drop (digitRun (signDollar cs).2)).length =
          (signDollar cs).2.length - digitRun (signDollar cs).2 := List.length_drop _ _
      have hwf := wfGroups_of_consume
        (matchGroups ((signDollar cs).2.drop (digitRun (signDollar cs).2))).1
        ((signDollar cs).2.drop (digitRun (signDollar cs).2))
        (matchGroups ((signDollar cs).2.drop (digitRun (signDollar cs).2))).2
        rfl (by omega) (by omega)
      rw [isWFGrouped]
      simp only [Bool.and_eq_true, decide_eq_true_iff]
      exact ⟨⟨by omega, by omega⟩, hwf⟩

theorem matchNumber_whole (cs : List Char) (h : matchAlt1 cs = some cs.length) :
    matchNumber cs = some cs.length := by
  rw [matchNumber, h]

theorem findIter_whole (text : List Char) (hne : text ≠ [])
    (h : matchNumber text = some text.length) :
    findIter matchNumber text = [(0, text.length)] := by
  rcases text with _ | ⟨c, cs⟩
  · exact absurd rfl hne
  · rw [findIter, findIterG, h]
    dsimp only [Option.map_some']
    rw [if_neg (by simp)]
    simp [List.length_cons, findIterG]

/-! ## C7: cleaning and parsing of well-formed literals -/

theorem cleanCs_append (a b : List Char) : cleanCs (a ++ b) = cleanCs a ++ cleanCs b :=
  List.filter_append _ _

theorem cleanPred_of_dig (c : Char) (h : isDig c = true) :
    (decide (c ≠ '$') && decide (c ≠ ',') && decide (c ≠ '%')) = true := by
  obtain ⟨n1, n2, n3, n4, n5⟩ := isDig_ne c h
  simp [n1, n3, n4]

theorem cleanCs_digits (g : List Char) (h : ∀ c ∈ g, isDig c = true) : cleanCs g = g := by
  rw [cleanCs]
  exact List.filter_eq_self.mpr (fun c hc => cleanPred_of_dig c (h c hc))

theorem cleanCs_cons_dig (x : Char) (l : List Char) (h : isDig x = true) :
    cleanCs (x :: l) = x :: cleanCs l := by
  obtain ⟨n1, n2, n3, n4, n5⟩ := isDig_ne x h
  simp [cleanCs, List.filter_cons, n1, n3, n4]

theorem clean_fracOk (rest : List Char) (h : fracOk rest = true) :
    cleanCs rest = [] ∨ ∃ fs, cleanCs rest = '.' :: fs ∧ fs ≠ [] ∧ ∀ c ∈ fs, isDig c = true := by
  cases rest with
  | nil => exact Or.inl rfl
  | cons c r =>
      rcases fracOk_head c r h with rfl | rfl
      · rw [fracOk, if_pos rfl] at h
        have hr : r = [] := by simpa [List.isEmpty_iff] using h
        subst hr
        exact Or.inl rfl
      · rw [fracOk, if_neg (by decide), if_pos rfl] at h
        simp only [Bool.and_eq_true, Bool.or_eq_true, decide_eq_true_iff] at h
        obtain ⟨hf, hdrop⟩ := h
        right
        refine ⟨r.take (digitRun r), ?_, ?_, take_digitRun_all r⟩
        · rw [show cleanCs ('.' :: r) = '.' :: cleanCs r from by
            rw [cleanCs, List.filter_cons_of_pos (by decide)]; rfl]
          congr 1
          conv_lhs => rw [show r = r.take (digitRun r) ++ r.drop (digitRun r) from
            (List.take_append_drop _ _).symm]
          rw [cleanCs_append, cleanCs_digits _ (take_digitRun_all r)]
          rcases hdrop with hd | hd
          · rw [hd]
            simp [cleanCs]
          · rw [hd]
            simp [cleanCs]
        · intro hnil
          have hlt : (r.take (digitRun r)).length = digitRun r := by
            rw [List.length_take]
            exact min_eq_left (digitRun_le_length r)
          rw [hnil] at hlt
          simp at hlt
          omega

theorem clean_wfGroups : ∀ (N : ℕ) (t : List Char), t.length ≤ N → wfGroups t = true →
    ∃ ds tl, cleanCs t = ds ++ tl ∧ ds ≠ [] ∧ (∀ c ∈ ds, isDig c = true) ∧
      (tl = [] ∨ ∃ fs, tl = '.' :: fs ∧ fs ≠ [] ∧ ∀ c ∈ fs, isDig c = true) := by
  intro N
  induction N with
  | zero =>
      intro t hl h
      rcases t with _ | ⟨c, r⟩
      · exact absurd h Bool.false_ne_true
      · simp at hl
  | succ N ih =>
      intro t hl h
      rcases t with _ | ⟨c, _ | ⟨a, _ | ⟨b, _ | ⟨d, rest⟩⟩⟩⟩
      · exact absurd h Bool.false_ne_true
      · exact absurd h Bool.false_ne_true
      · exact absurd h Bool.false_ne_true
      · exact absurd h Bool.false_ne_true
      · rw [wfGroups] at h
        simp only [Bool.and_eq_true, Bool.or_eq_true, decide_eq_true_iff] at h
        obtain ⟨⟨⟨⟨hc, ha⟩, hb⟩, hd2⟩, hor⟩ := h
        subst hc
        have hclean : cleanCs (',' :: a :: b :: d :: rest) = a :: b :: d :: cleanCs rest := by
          rw [cleanCs, List.filter_cons_of_neg (by decide)]
          rw [← cleanCs, cleanCs_cons_dig a _ ha, cleanCs_cons_dig b _ hb,
            cleanCs_cons_dig d _ hd2]
        rcases hor with hwf | hfrac
        · obtain ⟨ds, tl, hct, hds, hdig, htl⟩ := ih rest
            (by simp only [List.length_cons] at hl; omega) hwf
          refine ⟨a :: b :: d :: ds, tl, ?_, by simp, ?_, htl⟩
          · rw [hclean, hct]
            simp
          · intro x hx
            rcases List.mem_cons.mp hx with rfl | hx
            · exact ha
            · rcases List.mem_cons.mp hx with rfl | hx
              · exact hb
              · rcases List.mem_cons.mp hx with rfl | hx
                · exact hd2
                · exact hdig x hx
        · rcases clean_fracOk rest hfrac with hc0 | ⟨fs, hcf, hfs, hfd⟩
          · refine ⟨[a, b, d], [], ?_, by simp, ?_, Or.inl rfl⟩
            · rw [hclean, hc0]
              simp
            · intro x hx
              rcases List.mem_cons.mp hx with rfl | hx
              · exact ha
              · rcases List.mem_cons.mp hx with rfl | hx
                · exact hb
                · rcases List.mem_cons.mp hx with rfl | hx
                  · exact hd2
                  · cases hx
          · refine ⟨[a, b, d], '.' :: fs, ?_, by simp, ?_, Or.inr ⟨fs, rfl, hfs, hfd⟩⟩
            · rw [hclean, hcf]
              simp
            · intro x hx
              rcases List.mem_cons.mp hx with rfl | hx
              · exact ha
              · rcases List.mem_cons.mp hx with rfl | hx
                · exact hb
                · rcases List.mem_cons.mp hx with rfl | hx
                  · exact hd2
                  · cases hx

theorem parseFloatD_neg (e : Char) (r : List Char) (he : e ≠ '-') :
    parseFloatD ('-' :: e :: r) = (parseFloatD (e :: r)).map (fun q => DecF.mk (-q.mant) q.exp) := by
  simp [parseFloatD, if_neg he, Option.map_map]

theorem parseFloatD_shape (pre ds tl : List Char)
    (hpre : pre = [] ∨ pre = ['-']) (hds : ds ≠ []) (hdig : ∀ c ∈ ds, isDig c = true)
    (htl : tl = [] ∨ ∃ fs, tl = '.' :: fs ∧ fs ≠ [] ∧ ∀ c ∈ fs, isDig c = true) :
    ∃ v, parseFloatD (pre ++ (ds ++ tl)) = some v := by
  obtain ⟨e, ds', rfl⟩ := List.exists_cons_of_ne_nil hds
  have he : e ≠ '-' := (isDig_ne e (hdig e (List.mem_cons_self _ _))).2.2.2.2
  have hdtl0 : digitRun tl = 0 := by
    rcases htl with rfl | ⟨fs, rfl, _, _⟩
    · rfl
    · exact digitRun_cons_zero _ _ (by decide)
  have hi : digitRun ((e :: ds') ++ tl) = ds'.length + 1 := by
    rw [digitRun_append_all _ _ hdig, hdtl0]
    simp
  have hdrop : ((e :: ds') ++ tl).drop (digitRun ((e :: ds') ++ tl)) = tl := by
    rw [hi, show ds'.length + 1 = (e :: ds').length from by simp, List.drop_left]
  have htake : ((e :: ds') ++ tl).take (digitRun ((e :: ds') ++ tl)) = e :: ds' := by
    rw [hi, show ds'.length + 1 = (e :: ds').length from by simp, List.take_left]
  have hcore : ∃ v, parseFloatD ((e :: ds') ++ tl) = some v := by
    rcases htl with rfl | ⟨fs, rfl, hfs, hfd⟩
    · refine ⟨⟨digitsVal (e :: ds') 0, 0⟩, ?_⟩
      simp only [List.cons_append, List.append_nil] at hdrop htake hi ⊢
      simp only [parseFloatD, if_neg he]
      simp [hdrop, htake, hi]
    · have d1 : fs.drop (digitRun fs) = [] := by
        rw [digitRun_all fs hfd]
        exact List.drop_length _
      refine ⟨⟨(digitsVal (e :: ds') 0 : ℤ) * ipow 10 (digitRun fs) +
        digitsVal (fs.take (digitRun fs)) 0, digitRun fs⟩, ?_⟩
      simp only [List.cons_append] at hdrop htake hi ⊢
      simp only [parseFloatD, if_neg he]
      simp [hdrop, htake, hi, d1]
  rcases hpre with rfl | rfl
  · simpa using hcore
  · obtain ⟨v, hv⟩ := hcore
    refine ⟨⟨-v.mant, v.exp⟩, ?_⟩
    have hv' : parseFloatD (e :: (ds' ++ tl)) = some v := hv
    show parseFloatD ('-' :: e :: (ds' ++ tl)) = some ⟨-v.mant, v.exp⟩
    rw [parseFloatD_neg e _ he, hv']
    rfl

theorem cleanCs_decomma (l : List Char) :
    cleanCs (l.filter (fun c => decide (c ≠ ','))) = cleanCs l := by
  rw [cleanCs, cleanCs, List.filter_filter]
  apply List.filter_congr
  intro a _
  by_cases h : a = ','
  · subst h
    decide
  · simp [h]

/-! ## C7: malformed grouping is rejected by the grouped alternative -/

theorem wfGroups_comma_dest (w : List Char) (h : wfGroups (',' :: w) = true) :
    ∃ a b d w', w = a :: b :: d :: w' ∧ isDig a = true ∧ isDig b = true ∧ isDig d = true ∧
      (wfGroups w' = true ∨ fracOk w' = true) := by
  rcases w with _ | ⟨a, _ | ⟨b, _ | ⟨d, w'⟩⟩⟩
  · cases h
  · cases h
  · cases h
  · rw [wfGroups] at h
    simp only [Bool.and_eq_true, Bool.or_eq_true, decide_eq_true_iff] at h
    exact ⟨a, b, d, w', rfl, h.1.1.1.2, h.1.1.2, h.1.2, h.2⟩

theorem headW_not_dig (runs : List (List Char)) (rest : List Char) (hr : fracOk rest = true)
    (u : Char) (w : List Char)
    (h : ((runs.map (fun r => ',' :: r)).flatten ++ rest) = u :: w) :
    isDig u = false := by
  cases runs with
  | nil =>
      simp only [List.map_nil, List.flatten_nil, List.nil_append] at h
      subst h
      rcases fracOk_head u w hr with rfl | rfl <;> decide
  | cons r rs =>
      simp only [List.map_cons, List.flatten_cons, List.cons_append] at h
      injection h with h1 _
      subst h1
      decide

theorem wfGroups_join_all3 : ∀ (runs : List (List Char)) (rest : List Char),
    (∀ r ∈ runs, r.all isDig = true) → fracOk rest = true →
    wfGroups ((runs.map (fun r => ',' :: r)).flatten ++ rest) = true →
    ∀ r ∈ runs, r.length = 3 := by
  intro runs
  induction runs with
  | nil =>
      intro rest _ _ _ r hr
      cases hr
  | cons r₀ rs ih =>
      intro rest hdig hfrac h
      simp only [List.map_cons, List.flatten_cons, List.cons_append, List.append_assoc] at h
      obtain ⟨a, b, d, w', hw, ha, hb, hd, hor⟩ := wfGroups_comma_dest _ h
      have hr0dig : ∀ c ∈ r₀, isDig c = true :=
        List.all_eq_true.mp (hdig r₀ (List.mem_cons_self _ _))
      rcases r₀ with _ | ⟨x, _ | ⟨y, _ | ⟨z, r₀'⟩⟩⟩
      · simp only [List.nil_append] at hw
        have := headW_not_dig rs rest hfrac a (b :: d :: w') hw
        rw [this] at ha
        exact absurd ha (by decide)
      · simp only [List.cons_append, List.nil_append] at hw
        injection hw with _ hw2
        have := headW_not_dig rs rest hfrac b (d :: w') hw2
        rw [this] at hb
        exact absurd hb (by decide)
      · simp only [List.cons_append, List.nil_append] at hw
        injection hw with _ hw2
        injection hw2 with _ hw3
        have := headW_not_dig rs rest hfrac d w' hw3
        rw [this] at hd
        exact absurd hd (by decide)
      · simp only [List.cons_append] at hw
        injection hw with hx hw2
        injection hw2 with hy hw3
        injection hw3 with hz hw4
        rcases r₀' with _ | ⟨u, r₀''⟩
        · simp only [List.nil_append] at hw4
          have hrs : ∀ r ∈ rs, r.length = 3 := by
            rcases rs with _ | ⟨r1, rs'⟩
            · intro r hr
              cases hr
            · have hfw : fracOk w' = false := by
                rw [← hw4]
                simp only [List.map_cons, List.flatten_cons, List.cons_append]
                exact fracOk_cons_ne _ _ (by decide) (by decide)
              rcases hor with hwfw | hfr
              · rw [← hw4] at hwfw
                exact ih rest (fun r hr => hdig r (List.mem_cons_of_mem _ hr)) hfrac hwfw
              · rw [hfw] at hfr
                exact absurd hfr (by decide)
          intro r hr
          rcases List.mem_cons.mp hr with rfl | hr
          · rfl
          · exact hrs r hr
        · simp only [List.cons_append] at hw4
          have hu : isDig u = true := hr0dig u (by simp)
          have huc : u ≠ ',' := (isDig_ne u hu).1
          have hup : u ≠ '%' := (isDig_ne u hu).2.2.1
          have hud : u ≠ '.' := (isDig_ne u hu).2.1
          rcases hor with hwfw | hfr
          · rw [← hw4, wfGroups_cons_ne u _ huc] at hwfw
            exact absurd hwfw (by decide)
          · rw [← hw4, fracOk_cons_ne u _ hup hud] at hfr
            exact absurd hfr (by decide)

theorem malformed_not_wf (cs : List Char) (h : MalformedGrouped cs) :
    isWFGrouped cs = false := by
  obtain ⟨sd, g, runs, rest, hcs, hsd, hg, hgd, hruns, hrd, hfrac, hbad⟩ := h
  have hgd' : ∀ c ∈ g, isDig c = true := List.all_eq_true.mp hgd
  obtain ⟨e, g', rfl⟩ := List.exists_cons_of_ne_nil hg
  rw [List.append_assoc, List.append_assoc] at hcs
  have hcs' : cs = sd ++ e :: (g' ++ ((runs.map (fun r => ',' :: r)).flatten ++ rest)) := by
    rw [hcs]
    simp
  have hsdv : signDollar cs = (sd.length, e :: (g' ++ ((runs.map (fun r => ',' :: r)).flatten ++ rest))) := by
    conv_lhs => rw [hcs']
    exact signDollar_of_shape sd e _ hsd (hgd' e (List.mem_cons_self _ _))
  obtain ⟨r1, rs, rfl⟩ := List.exists_cons_of_ne_nil hruns
  have hflat0 : digitRun (((r1 :: rs).map (fun r => ',' :: r)).flatten ++ rest) = 0 := by
    simp only [List.map_cons, List.flatten_cons, List.cons_append]
    exact digitRun_cons_zero _ _ (by decide)
  have hdr : digitRun (signDollar cs).2 = (e :: g').length := by
    rw [hsdv]
    have := digitRun_append_all (e :: g') ((((r1 :: rs).map (fun r => ',' :: r)).flatten ++ rest)) hgd'
    simp only [List.cons_append] at this
    rw [this, hflat0]
    omega
  have hdrop : (signDollar cs).2.drop (digitRun (signDollar cs).2) =
      (((r1 :: rs).map (fun r => ',' :: r)).flatten ++ rest) := by
    rw [hdr, hsdv]
    show (e :: (g' ++ ((((r1 :: rs).map (fun r => ',' :: r)).flatten ++ rest)))).drop
      (e :: g').length = _
    have h2 : (e :: (g' ++ ((((r1 :: rs).map (fun r => ',' :: r)).flatten ++ rest)))) =
        (e :: g') ++ ((((r1 :: rs).map (fun r => ',' :: r)).flatten ++ rest)) := by simp
    rw [h2, List.drop_left]
  cases hwf : isWFGrouped cs with
  | false => rfl
  | true =>
      exfalso
      rw [isWFGrouped] at hwf
      simp only [Bool.and_eq_true, decide_eq_true_iff] at hwf
      obtain ⟨⟨h1, h3⟩, hwg⟩ := hwf
      rw [hdrop] at hwg
      have hall := wfGroups_join_all3 (r1 :: rs) rest hrd hfrac hwg
      rcases hbad with hlong | ⟨r, hrmem, hr3⟩
      · rw [hdr] at h3
        omega
      · exact hr3 (hall r hrmem)

/-- C7 (positive half and corrected negative half): a literal with
well-formed comma grouping is matched by the number pattern as a single
whole-string candidate, its cleaned text parses to a value, and that
value equals the parse of the comma-stripped (ungrouped) text; a literal
with malformed grouping is never matched in full by the comma-grouped
alternative. -/
theorem C7_comma_grouping :
    (∀ w : String, isWFGrouped w.data = true →
        findIter matchNumber w.data = [(0, w.data.length)] ∧
        ∃ v, parseFloatD (cleanCs w.data) = some v ∧
          parseFloatD (cleanCs (w.data.filter (fun c => decide (c ≠ ',')))) = some v) ∧
    (∀ cs : List Char, MalformedGrouped cs → matchAlt1 cs ≠ some cs.length) := by
  constructor
  · intro w hwf
    have hne : w.data ≠ [] := by
      intro h0
      rw [h0] at hwf
      exact absurd hwf (by decide)
    refine ⟨findIter_whole _ hne (matchNumber_whole _ (matchAlt1_of_wf _ hwf)), ?_⟩
    obtain ⟨pre0, hpre0, _, hpre0s⟩ := signDollar_decomp w.data
    rw [isWFGrouped] at hwf
    simp only [Bool.and_eq_true, decide_eq_true_iff] at hwf
    obtain ⟨⟨h1, h3⟩, hwg⟩ := hwf
    obtain ⟨ds, tl, hct, hds, hdsd, htl⟩ := clean_wfGroups
      ((signDollar w.data).2.drop (digitRun (signDollar w.data).2)).length _ (le_refl _) hwg
    have htdig := take_digitRun_all (signDollar w.data).2
    have htne : (signDollar w.data).2.take (digitRun (signDollar w.data).2) ≠ [] := by
      have hlt : ((signDollar w.data).2.take (digitRun (signDollar w.data).2)).length =
          min (digitRun (signDollar w.data).2) (signDollar w.data).2.length :=
        List.length_take _ _
      intro h0
      rw [h0] at hlt
      have hle := digitRun_le_length (signDollar w.data).2
      simp at hlt
      omega
    have hcpre : cleanCs pre0 = [] ∨ cleanCs pre0 = ['-'] := by
      rcases hpre0s with rfl | rfl | rfl | rfl
      · exact Or.inl rfl
      · exact Or.inr (by decide)
      · exact Or.inl (by decide)
      · exact Or.inr (by decide)
    have hkey : cleanCs w.data = cleanCs pre0 ++
        (((signDollar w.data).2.take (digitRun (signDollar w.data).2) ++ ds) ++ tl) := by
      conv_lhs => rw [hpre0]
      rw [cleanCs_append]
      congr 1
      conv_lhs => rw [show (signDollar w.data).2 =
        (signDollar w.data).2.take (digitRun (signDollar w.data).2) ++
          (signDollar w.data).2.drop (digitRun (signDollar w.data).2) from
        (List.take_append_drop _ _).symm]
      rw [cleanCs_append, cleanCs_digits _ htdig, hct, List.append_assoc]
    obtain ⟨v, hv⟩ := parseFloatD_shape (cleanCs pre0)
      ((signDollar w.data).2.take (digitRun (signDollar w.data).2) ++ ds) tl hcpre
      (by
        intro h0
        exact htne (List.append_eq_nil.mp h0).1)
      (by
        intro c hc
        rcases List.mem_append.mp hc with hcm | hcm
        · exact htdig c hcm
        · exact hdsd c hcm) htl
    exact ⟨v, by rw [hkey]; exact hv, by rw [cleanCs_decomma, hkey]; exact hv⟩
  · intro cs hmal hmat
    have := wf_of_matchAlt1 cs hmat
    rw [malformed_not_wf cs hmal] at this
    exact absurd this (by decide)

/-- C7 counterexample: the literal "1,2345" has malformed comma grouping
(its single comma group "2345" has four digits), yet matching does not
fall through to the plain-decimal alternative: the comma-grouped
alternative still matches the five-character prefix "1,234" (while the
plain alternative would only match "1"), so the engine fragments the
literal into the candidates 1234 ("1,234") and 5 ("5"). -/
theorem C7_counterexample :
    MalformedGrouped "1,2345".data ∧
    matchAlt1 "1,2345".data = some 5 ∧
    matchAlt2 "1,2345".data = some 1 ∧
    extract_numbers_with_context "1,2345" none = [(1234, "1,234"), (5, "5")] := by
  refine ⟨⟨[], ['1'], [['2', '3', '4', '5']], [], by decide, by decide, by decide, by decide,
    by decide, by decide, by decide, by decide⟩, by decide, by decide, ?_⟩
  have h : extractD "1,2345" none =
      [(⟨1234, 0⟩, "1,234", 0, 5), (⟨5, 0⟩, "5", 5, 6)] := by decide
  simp only [extract_numbers_with_context, h, List.map_cons, List.map_nil, DecF.toQ]
  norm_num

theorem C7_comma_grouping_witness :
    (findIter matchNumber "1,234,567.89".data = [(0, "1,234,567.89".data.length)] ∧
      ∃ v, parseFloatD (cleanCs "1,234,567.89".data) = some v ∧
        parseFloatD (cleanCs ("1,234,567.89".data.filter (fun c => decide (c ≠ ',')))) = some v) ∧
    matchAlt1 "12,34".data ≠ some "12,34".data.length :=
  ⟨C7_comma_grouping.1 "1,234,567.89" (by decide),
   C7_comma_grouping.2 "12,34".data
     ⟨[], ['1', '2'], [['3', '4']], [], by decide, by decide, by decide, by decide,
       by decide, by decide, by decide, by decide⟩⟩

end Pdf
